import Mathlib

/-!
Verification of the sbh_assembler core (src/sbh_assembler.rs, src/utils.rs)
against its natural-language specification.

Shallow embedding conventions:
* byte values are `Nat` (the source uses `u8`; all arithmetic on symbol
  values stays far below any overflow boundary, and index arithmetic on a
  15-symbol k-mer stays below 4^15 < 2^32, so `Nat` is exact);
* Rust aborts (the explicit aborts in `vec2idx`, the `usize` subtraction
  underflow in `read.len() - 15`, the `usize` degree decrements, and the
  `unwrap()` calls in the traversal) are modelled as `Option.none`;
* the `HashMap`s of the source are modelled as association lists in
  insertion order (the source's iteration order is unspecified; the spec
  explicitly allows any deterministic choice);
* the shared mutable `Rc<RefCell<Node>>` cells are modelled by keeping all
  node state in one association list keyed by the node's `idx`, and
  representing every reference to a node by its key;
* the rayon-parallel passes (`remove_contained_contigs`' marking pass and
  `merge_contigs`' overlap scan) are modelled by their sequential schedule;
  the spec itself notes the marks are write-once booleans and the merge
  application is sequential, so the sequential schedule is a faithful
  executable model of the observable behaviour.
-/

namespace SBH

open scoped List

/-! ### K-mer codec (src/utils.rs) -/

/-- One symbol byte to its base-4 value, as in the `match` inside `vec2idx`:
A(65)=0, C(67)=1, G(71)=2, T(84)=3; any other byte aborts the run
(`none`). -/
def sym2val (c : Nat) : Option Nat :=
  if c = 65 then some 0
  else if c = 67 then some 1
  else if c = 71 then some 2
  else if c = 84 then some 3
  else none

/-- A byte is one of the four alphabet symbols A, C, G, T. -/
def validSym (c : Nat) : Prop := c = 65 ∨ c = 67 ∨ c = 71 ∨ c = 84

instance (c : Nat) : Decidable (validSym c) := by
  unfold validSym; infer_instance

/-- The accumulation loop of `vec2idx`: symbol at iteration `i` contributes
`v * 4^i` to the accumulator `idx`. -/
def vec2idxGo : List Nat → Nat → Nat → Option Nat
  | [], _, idx => some idx
  | c :: cs, i, idx =>
    match sym2val c with
    | some v => vec2idxGo cs (i + 1) (idx + v * 4 ^ i)
    | none => none

/-- `NodeType` from src/sbh_assembler.rs (the source calls the variants
Prefix and Suffix). -/
inductive NodeType
  | Pfx
  | Sfx
deriving DecidableEq, Repr

/-- The iterator selection at the top of `vec2idx`: `take(15)` for a prefix
node, `skip(read.len() - 15)` for a suffix node.  The `usize` subtraction
`read.len() - 15` aborts on underflow (`none`). -/
def selectKmer (read : List Nat) : NodeType → Option (List Nat)
  | NodeType.Pfx => some (read.take 15)
  | NodeType.Sfx =>
      if read.length < 15 then none else some (read.drop (read.length - 15))

/-- `utils::vec2idx`: select the prefix or suffix k-mer of the read and
encode it as a base-4 little-endian integer; `none` models the two fatal
conditions (a byte outside {A,C,G,T}, or the length underflow for a suffix
selection on a short read). -/
def vec2idx (read : List Nat) (t : NodeType) : Option Nat :=
  match selectKmer read t with
  | some s => vec2idxGo s 0 0
  | none => none

/-- One base-4 digit back to its symbol byte, as in the `match` inside
`idx2vec`.  The argument is always `idx % 4 < 4`; the source's catch-all
arm for a remainder ≥ 4 is unreachable, so the final branch simply returns
84 (the value `r = 3` maps to). -/
def val2sym (r : Nat) : Nat :=
  if r = 0 then 65 else if r = 1 then 67 else if r = 2 then 71 else 84

/-- `utils::idx2vec`: emit `length` symbols, least-significant base-4 digit
first, dividing the index by 4 each step. -/
def idx2vec : Nat → Nat → List Nat
  | _, 0 => []
  | idx, l + 1 => val2sym (idx % 4) :: idx2vec (idx / 4) l

/-- Reference base-4 little-endian value of a symbol list (the digit of an
invalid symbol is irrelevant; it is only used on valid lists). -/
def encVal : List Nat → Nat
  | [] => 0
  | c :: cs => (sym2val c).getD 0 + 4 * encVal cs

theorem sym2val_isSome_iff (c : Nat) : (sym2val c).isSome = true ↔ validSym c := by
  unfold sym2val validSym
  by_cases h1 : c = 65 <;> by_cases h2 : c = 67 <;> by_cases h3 : c = 71 <;>
    by_cases h4 : c = 84 <;> simp [h1, h2, h3, h4]

theorem sym2val_lt_four {c v : Nat} (h : sym2val c = some v) : v < 4 := by
  unfold sym2val at h
  by_cases h1 : c = 65 <;> by_cases h2 : c = 67 <;> by_cases h3 : c = 71 <;>
    by_cases h4 : c = 84 <;> simp [h1, h2, h3, h4] at h <;> omega

theorem val2sym_sym2val {c v : Nat} (h : sym2val c = some v) : val2sym v = c := by
  unfold sym2val at h
  by_cases h1 : c = 65 <;> by_cases h2 : c = 67 <;> by_cases h3 : c = 71 <;>
    by_cases h4 : c = 84 <;>
      simp [h1, h2, h3, h4] at h <;> simp [val2sym, ← h] <;> omega

theorem vec2idxGo_eq_encVal :
    ∀ (s : List Nat) (i a : Nat), (∀ c ∈ s, validSym c) →
      vec2idxGo s i a = some (a + encVal s * 4 ^ i) := by
  intro s
  induction s with
  | nil => intro i a _; simp [vec2idxGo, encVal]
  | cons c cs ih =>
    intro i a hv
    have hc : validSym c := hv c (by simp)
    have hsome : (sym2val c).isSome = true := (sym2val_isSome_iff c).mpr hc
    obtain ⟨v, hvc⟩ := Option.isSome_iff_exists.mp hsome
    have hcs : ∀ c' ∈ cs, validSym c' := fun c' h' => hv c' (by simp [h'])
    simp only [vec2idxGo, hvc]
    rw [ih (i + 1) (a + v * 4 ^ i) hcs]
    congr 1
    simp [encVal, hvc]
    ring

theorem vec2idxGo_eq_none_iff :
    ∀ (s : List Nat) (i a : Nat),
      vec2idxGo s i a = none ↔ ∃ c ∈ s, ¬ validSym c := by
  intro s
  induction s with
  | nil => intro i a; simp [vec2idxGo]
  | cons c cs ih =>
    intro i a
    by_cases hc : validSym c
    · have hsome : (sym2val c).isSome = true := (sym2val_isSome_iff c).mpr hc
      obtain ⟨v, hvc⟩ := Option.isSome_iff_exists.mp hsome
      simp only [vec2idxGo, hvc]
      rw [ih]
      constructor
      · rintro ⟨c', hm, hnv⟩; exact ⟨c', by simp [hm], hnv⟩
      · rintro ⟨c', hm, hnv⟩
        rcases List.mem_cons.mp hm with h | h
        · exact absurd hc (h ▸ hnv)
        · exact ⟨c', h, hnv⟩
    · have hnone : sym2val c = none := by
        cases h : sym2val c with
        | none => rfl
        | some v =>
          exact absurd ((sym2val_isSome_iff c).mp (by simp [h])) hc
      simp only [vec2idxGo, hnone]
      exact ⟨fun _ => ⟨c, by simp, hc⟩, fun _ => by trivial⟩

theorem idx2vec_encVal :
    ∀ (s : List Nat), (∀ c ∈ s, validSym c) → idx2vec (encVal s) s.length = s := by
  intro s
  induction s with
  | nil => intro _; simp [idx2vec]
  | cons c cs ih =>
    intro hv
    have hc : validSym c := hv c (by simp)
    have hsome : (sym2val c).isSome = true := (sym2val_isSome_iff c).mpr hc
    obtain ⟨v, hvc⟩ := Option.isSome_iff_exists.mp hsome
    have hv4 : v < 4 := sym2val_lt_four hvc
    have henc : encVal (c :: cs) = v + 4 * encVal cs := by simp [encVal, hvc]
    have hmod : (v + 4 * encVal cs) % 4 = v := by omega
    have hdiv : (v + 4 * encVal cs) / 4 = encVal cs := by omega
    simp only [henc, List.length_cons, idx2vec, hmod, hdiv]
    rw [val2sym_sym2val hvc, ih (fun c' h' => hv c' (by simp [h']))]

/-- C5.  Codec round-trip: for every string of length 15 over {A,C,G,T},
decoding the prefix encoding gives the string back:
`idx2vec (vec2idx s Pfx) 15 = s`. -/
theorem c5_codec_round_trip (s : List Nat) (hlen : s.length = 15)
    (hv : ∀ c ∈ s, validSym c) :
    (vec2idx s NodeType.Pfx).map (fun i => idx2vec i 15) = some s := by
  have htake : s.take 15 = s := List.take_of_length_le (by omega)
  have henc : vec2idx s NodeType.Pfx = some (encVal s) := by
    simp only [vec2idx, selectKmer, htake]
    rw [vec2idxGo_eq_encVal s 0 0 hv]
    norm_num
  rw [henc, Option.map_some', ← hlen, idx2vec_encVal s hv]

/-- Witness for C5 at the concrete all-A 15-mer. -/
theorem c5_codec_round_trip_witness :
    (vec2idx (List.replicate 15 65) NodeType.Pfx).map (fun i => idx2vec i 15)
      = some (List.replicate 15 65) :=
  c5_codec_round_trip (List.replicate 15 65) (by decide) (by decide)

/-- C9.  Whenever the k-mer selection itself is defined (always for a
prefix node; for a suffix node when the read has at least 15 symbols),
`vec2idx` aborts exactly when the selected symbols contain a byte outside
{A,C,G,T}; on a selection made only of {A,C,G,T} it returns normally. -/
theorem c9_encode_abort_iff (read : List Nat) (t : NodeType)
    (h : t = NodeType.Pfx ∨ 15 ≤ read.length) :
    ∃ sel, selectKmer read t = some sel ∧
      (vec2idx read t = none ↔ ∃ c ∈ sel, ¬ validSym c) := by
  have hsel : ∃ sel, selectKmer read t = some sel := by
    cases t with
    | Pfx => exact ⟨read.take 15, rfl⟩
    | Sfx =>
      rcases h with h | h
      · cases h
      · exact ⟨read.drop (read.length - 15), by simp [selectKmer]; omega⟩
  obtain ⟨sel, hsel⟩ := hsel
  refine ⟨sel, hsel, ?_⟩
  simp only [vec2idx, hsel]
  exact vec2idxGo_eq_none_iff sel 0 0

/-- Witness for C9: on a read containing a byte 88 ('X') among the first
15 symbols, the encoder aborts. -/
theorem c9_encode_abort_iff_witness :
    ∃ sel, selectKmer (88 :: List.replicate 29 65) NodeType.Pfx = some sel ∧
      (vec2idx (88 :: List.replicate 29 65) NodeType.Pfx = none ↔
        ∃ c ∈ sel, ¬ validSym c) :=
  c9_encode_abort_iff (88 :: List.replicate 29 65) NodeType.Pfx (Or.inl rfl)

/-- C10.  Suffix encoding: on a read of length at least 15 the suffix
selection is defined and encodes the last 15 symbols (and succeeds whenever
those symbols are all in {A,C,G,T}); on a read shorter than 15 symbols the
`usize` computation `read.len() - 15` underflows and the call aborts
instead of returning a value. -/
theorem c10_suffix_precondition (read : List Nat) :
    (read.length < 15 → vec2idx read NodeType.Sfx = none) ∧
    (15 ≤ read.length →
      selectKmer read NodeType.Sfx = some (read.drop (read.length - 15)) ∧
      (read.drop (read.length - 15)).length = 15 ∧
      vec2idx read NodeType.Sfx = vec2idxGo (read.drop (read.length - 15)) 0 0 ∧
      ((∀ c ∈ read, validSym c) → (vec2idx read NodeType.Sfx).isSome = true)) := by
  constructor
  · intro h
    simp [vec2idx, selectKmer, h]
  · intro h
    have hsel : selectKmer read NodeType.Sfx = some (read.drop (read.length - 15)) := by
      simp [selectKmer]; omega
    refine ⟨hsel, ?_, ?_, ?_⟩
    · simp [List.length_drop]; omega
    · simp [vec2idx, hsel]
    · intro hv
      have hv' : ∀ c ∈ read.drop (read.length - 15), validSym c :=
        fun c hc => hv c (List.mem_of_mem_drop hc)
      have : vec2idx read NodeType.Sfx
          = some (0 + encVal (read.drop (read.length - 15)) * 4 ^ 0) := by
        simp only [vec2idx, hsel]
        exact vec2idxGo_eq_encVal _ 0 0 hv'
      simp [this]

/-- Witness for C10: a 30-symbol read of A's has a defined suffix encoding,
and a 3-symbol read aborts. -/
theorem c10_suffix_precondition_witness :
    (vec2idx (List.replicate 30 65) NodeType.Sfx).isSome = true ∧
    vec2idx (List.replicate 3 65) NodeType.Sfx = none :=
  ⟨((c10_suffix_precondition (List.replicate 30 65)).2 (by decide)).2.2.2
      (by decide),
   (c10_suffix_precondition (List.replicate 3 65)).1 (by decide)⟩

/-! ### Overlap detection for a pair of contigs (`merge_if_overlap`) -/

/-- `c2`'s suffix of length `k` equals `c1`'s first `k` symbols
(Rust: `c1.starts_with(&c2[c2.len() - k ..])`). -/
def sufPreMatch (c1 c2 : List Nat) (k : Nat) : Prop :=
  c1.take k = c2.drop (c2.length - k)

instance (c1 c2 k) : Decidable (sufPreMatch c1 c2 k) := by
  unfold sufPreMatch; infer_instance

/-- One contig's suffix of length `k` equals the other's k-symbol front
(either orientation). -/
def overlapMatch (c1 c2 : List Nat) (k : Nat) : Prop :=
  sufPreMatch c1 c2 k ∨ sufPreMatch c2 c1 k

instance (c1 c2 k) : Decidable (overlapMatch c1 c2 k) := by
  unfold overlapMatch; infer_instance

/-- The scan of `merge_if_overlap`: candidate index `i` stands for overlap
length `i + 1`; `fuel` is the number of loop iterations left (the call site
passes `min (len c1) (len c2)`, the Rust loop bound).  At each `i` the
source first tests `c2`'s suffix against `c1`'s front, then the other
orientation, returning as soon as a match of length `≥ m` is seen. -/
def mergeIfOverlapGo (c1 c2 : List Nat) (m : Nat) : Nat → Nat → Option (Nat × List Nat)
  | _, 0 => none
  | i, fuel + 1 =>
    if c1.take (i + 1) = c2.drop (c2.length - (i + 1)) ∧ m ≤ i + 1 then
      some (i + 1, c2.take (c2.length - (i + 1)) ++ c1)
    else if c2.take (i + 1) = c1.drop (c1.length - (i + 1)) ∧ m ≤ i + 1 then
      some (i + 1, c1.take (c1.length - (i + 1)) ++ c2)
    else
      mergeIfOverlapGo c1 c2 m (i + 1) fuel

/-- `Assembler::merge_if_overlap`. -/
def merge_if_overlap (c1 c2 : List Nat) (m : Nat) : Option (Nat × List Nat) :=
  mergeIfOverlapGo c1 c2 m 0 (min c1.length c2.length)

theorem mergeIfOverlapGo_spec (c1 c2 : List Nat) (m : Nat) :
    ∀ (fuel i : Nat),
      (∀ k nc, mergeIfOverlapGo c1 c2 m i fuel = some (k, nc) →
        i < k ∧ k ≤ i + fuel ∧ m ≤ k ∧ overlapMatch c1 c2 k ∧
        (∀ k', i < k' → m ≤ k' → k' < k → ¬ overlapMatch c1 c2 k') ∧
        (nc = c2.take (c2.length - k) ++ c1 ∨ nc = c1.take (c1.length - k) ++ c2)) ∧
      (mergeIfOverlapGo c1 c2 m i fuel = none →
        ∀ k, i < k → k ≤ i + fuel → m ≤ k → ¬ overlapMatch c1 c2 k) := by
  intro fuel
  induction fuel with
  | zero =>
    intro i
    refine ⟨fun k nc h => by simp [mergeIfOverlapGo] at h, fun _ k h1 h2 _ => ?_⟩
    omega
  | succ fuel ih =>
    intro i
    by_cases hA : c1.take (i + 1) = c2.drop (c2.length - (i + 1)) ∧ m ≤ i + 1
    · constructor
      · intro k nc h
        simp only [mergeIfOverlapGo, if_pos hA] at h
        obtain ⟨hk, hnc⟩ := Prod.mk.injEq .. ▸ (Option.some.injEq .. ▸ h)
        subst hk
        exact ⟨by omega, by omega, hA.2, Or.inl hA.1,
          fun k' h1 _ h3 => absurd h3 (by omega), Or.inl hnc.symm⟩
      · intro h
        simp only [mergeIfOverlapGo, if_pos hA] at h
        exact absurd h (Option.some_ne_none _)
    · by_cases hB : c2.take (i + 1) = c1.drop (c1.length - (i + 1)) ∧ m ≤ i + 1
      · constructor
        · intro k nc h
          simp only [mergeIfOverlapGo, if_neg hA, if_pos hB] at h
          obtain ⟨hk, hnc⟩ := Prod.mk.injEq .. ▸ (Option.some.injEq .. ▸ h)
          subst hk
          exact ⟨by omega, by omega, hB.2, Or.inr hB.1,
            fun k' h1 _ h3 => absurd h3 (by omega), Or.inr hnc.symm⟩
        · intro h
          simp only [mergeIfOverlapGo, if_neg hA, if_pos hB] at h
          exact absurd h (Option.some_ne_none _)
      · have hstep : mergeIfOverlapGo c1 c2 m i (fuel + 1)
            = mergeIfOverlapGo c1 c2 m (i + 1) fuel := by
          simp only [mergeIfOverlapGo, if_neg hA, if_neg hB]
        have hnomatch : m ≤ i + 1 → ¬ overlapMatch c1 c2 (i + 1) := by
          intro hm hov
          rcases hov with hov | hov
          · exact hA ⟨hov, hm⟩
          · exact hB ⟨hov, hm⟩
        constructor
        · intro k nc h
          rw [hstep] at h
          obtain ⟨h1, h2, h3, h4, h5, h6⟩ := (ih (i + 1)).1 k nc h
          refine ⟨by omega, by omega, h3, h4, ?_, h6⟩
          intro k' hk1 hk2 hk3
          by_cases hk' : k' = i + 1
          · subst hk'; exact hnomatch hk2
          · exact h5 k' (by omega) hk2 hk3
        · intro h k hk1 hk2 hk3
          rw [hstep] at h
          by_cases hk' : k = i + 1
          · subst hk'; exact hnomatch hk3
          · exact (ih (i + 1)).2 h k (by omega) (by omega) hk3

/-- C6.  `merge_if_overlap` scans overlap lengths `k` from 1 up to
`min (len c1) (len c2)` and returns at the first `k ≥ min_overlap` where
one contig's suffix of length `k` equals the other's front of length `k`
(smallest qualifying overlap); the merged contig then has length
`len c1 + len c2 - k`.  When no such `k` exists it returns nothing. -/
theorem c6_merge_smallest_overlap (c1 c2 : List Nat) (m : Nat) :
    (∀ k nc, merge_if_overlap c1 c2 m = some (k, nc) →
      1 ≤ k ∧ m ≤ k ∧ k ≤ min c1.length c2.length ∧ overlapMatch c1 c2 k ∧
      (∀ k', 1 ≤ k' → m ≤ k' → k' < k → ¬ overlapMatch c1 c2 k') ∧
      nc.length = c1.length + c2.length - k) ∧
    (merge_if_overlap c1 c2 m = none →
      ∀ k, 1 ≤ k → m ≤ k → k ≤ min c1.length c2.length →
        ¬ overlapMatch c1 c2 k) := by
  have hspec := mergeIfOverlapGo_spec c1 c2 m (min c1.length c2.length) 0
  constructor
  · intro k nc h
    obtain ⟨h1, h2, h3, h4, h5, h6⟩ := hspec.1 k nc h
    have hk2 : k ≤ c2.length := by omega
    have hk1 : k ≤ c1.length := by omega
    refine ⟨by omega, h3, by omega, h4, fun k' a b c => h5 k' (by omega) b c, ?_⟩
    rcases h6 with h6 | h6 <;> subst h6 <;>
      simp [List.length_take, List.length_append] <;> omega
  · intro h k hk1 hk2 hk3
    exact hspec.2 h k (by omega) (by omega) hk2

/-- Witness for C6 at a concrete pair with smallest qualifying overlap 2. -/
theorem c6_merge_smallest_overlap_witness :
    merge_if_overlap [3, 4, 5, 6, 7] [1, 2, 3, 4] 2 = some (2, [1, 2, 3, 4, 5, 6, 7]) ∧
    ([1, 2, 3, 4, 5, 6, 7] : List Nat).length
      = ([3, 4, 5, 6, 7] : List Nat).length + ([1, 2, 3, 4] : List Nat).length - 2 :=
  ⟨by decide,
    ((c6_merge_smallest_overlap [3, 4, 5, 6, 7] [1, 2, 3, 4] 2).1
      2 [1, 2, 3, 4, 5, 6, 7] (by decide)).2.2.2.2.2⟩

/-! ### Sorting a contig collection by descending length

The source uses `sort_unstable_by_key(Reverse(len))`; its order among
contigs of equal length is unspecified, so any correct descending sort is
a faithful deterministic model.  We use a stable insertion sort. -/

/-- Insert a contig in front of the first element that is not longer. -/
def insertByLenDesc (c : List Nat) : List (List Nat) → List (List Nat)
  | [] => [c]
  | d :: ds => if d.length ≤ c.length then c :: d :: ds else d :: insertByLenDesc c ds

/-- Sort by descending length (stable). -/
def sortByLenDesc (l : List (List Nat)) : List (List Nat) :=
  l.foldr insertByLenDesc []

/-- Sorted by weakly descending length. -/
def LenSorted (l : List (List Nat)) : Prop :=
  l.Pairwise (fun a b => b.length ≤ a.length)

theorem mem_insertByLenDesc {c x : List Nat} :
    ∀ {l : List (List Nat)}, x ∈ insertByLenDesc c l → x = c ∨ x ∈ l := by
  intro l
  induction l with
  | nil => intro h; simp [insertByLenDesc] at h; exact Or.inl h
  | cons d ds ih =>
    intro h
    by_cases hc : d.length ≤ c.length
    · simp only [insertByLenDesc, if_pos hc] at h
      rcases List.mem_cons.mp h with h | h
      · exact Or.inl h
      · exact Or.inr h
    · simp only [insertByLenDesc, if_neg hc] at h
      rcases List.mem_cons.mp h with h | h
      · exact Or.inr (by simp [h])
      · rcases ih h with h | h
        · exact Or.inl h
        · exact Or.inr (by simp [h])

theorem lenSorted_insertByLenDesc {c : List Nat} :
    ∀ {l : List (List Nat)}, LenSorted l → LenSorted (insertByLenDesc c l) := by
  intro l
  induction l with
  | nil => intro _; simp [insertByLenDesc, LenSorted]
  | cons d ds ih =>
    intro hs
    have hd := (List.pairwise_cons.mp hs).1
    have hds := (List.pairwise_cons.mp hs).2
    by_cases hc : d.length ≤ c.length
    · simp only [insertByLenDesc, if_pos hc]
      refine List.pairwise_cons.mpr ⟨?_, hs⟩
      intro x hx
      rcases List.mem_cons.mp hx with h | h
      · subst h; omega
      · have := hd x h; omega
    · simp only [insertByLenDesc, if_neg hc]
      refine List.pairwise_cons.mpr ⟨?_, ih hds⟩
      intro x hx
      rcases mem_insertByLenDesc hx with h | h
      · subst h; omega
      · exact hd x h

theorem lenSorted_sortByLenDesc (l : List (List Nat)) : LenSorted (sortByLenDesc l) := by
  induction l with
  | nil => simp [sortByLenDesc, LenSorted]
  | cons c cs ih => exact lenSorted_insertByLenDesc ih

theorem sortByLenDesc_of_sorted :
    ∀ {l : List (List Nat)}, LenSorted l → sortByLenDesc l = l := by
  intro l
  induction l with
  | nil => intro _; rfl
  | cons c cs ih =>
    intro hs
    have hcs := (List.pairwise_cons.mp hs).2
    have hrec : sortByLenDesc cs = cs := ih hcs
    show insertByLenDesc c (sortByLenDesc cs) = c :: cs
    rw [hrec]
    cases cs with
    | nil => rfl
    | cons d ds =>
      have hd : d.length ≤ c.length := (List.pairwise_cons.mp hs).1 d (by simp)
      simp [insertByLenDesc, hd]

/-! ### `merge_contigs` (the condensation merge loop) -/

/-- `Vec::swap_remove(i)`: overwrite position `i` with the last element and
drop the last slot.  Callers only use indices in range. -/
def swapRemove (l : List (List Nat)) (i : Nat) : List (List Nat) :=
  l.dropLast.set i (l.getLastD [])

/-- The detect phase of one `merge_contigs` iteration: the source computes
`merge_if_overlap(contigs[i], contigs[j])` for every `j > i` over the
unchanged collection (a parallel map) and then applies the first `Some`
in index order. -/
def findMergeJGo (contigs : List (List Nat)) (ci : List Nat) (m : Nat) :
    Nat → Nat → Option (Nat × (Nat × List Nat))
  | 0, _ => none
  | fuel + 1, j =>
    if j < contigs.length then
      match merge_if_overlap ci (contigs.getD j []) m with
      | some r => some (j, r)
      | none => findMergeJGo contigs ci m fuel (j + 1)
    else none

/-- The inner scan, entered at index `j`; the fuel `contigs.length - j`
counts exactly the indices left to visit. -/
def findMergeJ (contigs : List (List Nat)) (ci : List Nat) (m j : Nat) :
    Option (Nat × (Nat × List Nat)) :=
  findMergeJGo contigs ci m (contigs.length - j) j

/-- The while loop of `merge_contigs`.  On a qualifying pair `(i, j)` the
source removes `j` then `i` by swap-removal, pushes the joined contig,
sets the cursor to 0 and breaks out of the inner scan — after which the
loop's `i += 1` runs, so the next iteration scans from cursor 1.  `fuel`
bounds the number of while-iterations (each merge shortens the collection
and between merges the cursor strictly increases, so the bound passed by
`merge_contigs` is never exhausted on any input it is called with). -/
def mergeContigsGo (m : Nat) : Nat → List (List Nat) → Nat → Nat → List (List Nat) × Nat
  | 0, contigs, _, merged => (contigs, merged)
  | fuel + 1, contigs, i, merged =>
    if i < contigs.length then
      match findMergeJ contigs (contigs.getD i []) m (i + 1) with
      | some (j, (_, nc)) =>
          mergeContigsGo m fuel (swapRemove (swapRemove contigs j) i ++ [nc]) 1 (merged + 2)
      | none => mergeContigsGo m fuel contigs (i + 1) merged
    else (contigs, merged)

/-- `Assembler::merge_contigs`. -/
def merge_contigs (contigs : List (List Nat)) (m : Nat) : List (List Nat) × Nat :=
  let sorted := sortByLenDesc contigs
  mergeContigsGo m ((sorted.length + 1) * (sorted.length + 2)) sorted 0 0

/-- Modelled from the spec words for C2 ("reset the cursor to 0, so
scanning of pairs restarts from the first contig of the updated
collection"): identical to `mergeContigsGo` except that after applying a
merge the next iteration really starts at cursor 0. -/
def mergeRestart0Go (m : Nat) : Nat → List (List Nat) → Nat → Nat → List (List Nat) × Nat
  | 0, contigs, _, merged => (contigs, merged)
  | fuel + 1, contigs, i, merged =>
    if i < contigs.length then
      match findMergeJ contigs (contigs.getD i []) m (i + 1) with
      | some (j, (_, nc)) =>
          mergeRestart0Go m fuel (swapRemove (swapRemove contigs j) i ++ [nc]) 0 (merged + 2)
      | none => mergeRestart0Go m fuel contigs (i + 1) merged
    else (contigs, merged)

/-- The merge loop as the spec's words describe it (cursor restart at 0). -/
def merge_contigs_restart0 (contigs : List (List Nat)) (m : Nat) : List (List Nat) × Nat :=
  let sorted := sortByLenDesc contigs
  mergeRestart0Go m ((sorted.length + 1) * (sorted.length + 2)) sorted 0 0

theorem findMergeJGo_some (contigs : List (List Nat)) (ci : List Nat) (m : Nat) :
    ∀ fuel j0 j r, findMergeJGo contigs ci m fuel j0 = some (j, r) →
      j0 ≤ j ∧ j < contigs.length ∧
      merge_if_overlap ci (contigs.getD j []) m = some r := by
  intro fuel
  induction fuel with
  | zero =>
    intro j0 j r h
    simp [findMergeJGo] at h
  | succ fuel ih =>
    intro j0 j r h
    by_cases hj0 : j0 < contigs.length
    · simp only [findMergeJGo, if_pos hj0] at h
      cases hmio : merge_if_overlap ci (contigs.getD j0 []) m with
      | some r' =>
        rw [hmio] at h
        obtain ⟨hj, hr⟩ := Prod.mk.injEq .. ▸ (Option.some.injEq .. ▸ h)
        subst hj; subst hr
        exact ⟨le_refl _, hj0, hmio⟩
      | none =>
        rw [hmio] at h
        obtain ⟨h1, h2, h3⟩ := ih (j0 + 1) j r h
        exact ⟨by omega, h2, h3⟩
    · simp [findMergeJGo, hj0] at h

theorem findMergeJ_some (contigs : List (List Nat)) (ci : List Nat) (m : Nat) :
    ∀ j0 j r, findMergeJ contigs ci m j0 = some (j, r) →
      j0 ≤ j ∧ j < contigs.length ∧
      merge_if_overlap ci (contigs.getD j []) m = some r := by
  intro j0 j r h
  exact findMergeJGo_some contigs ci m _ j0 j r h

/-- Default-independence of `getLastD` on a non-empty list. -/
theorem getLastD_indep {α : Type} :
    ∀ (l : List α) (d1 d2 : α), l ≠ [] → l.getLastD d1 = l.getLastD d2 := by
  intro l
  induction l with
  | nil => intro _ _ h; exact absurd rfl h
  | cons a t ih =>
    intro d1 d2 _
    cases t with
    | nil => rfl
    | cons b t' => exact ih d1 d2 (by simp)

theorem getLastD_drop {α : Type} :
    ∀ (l : List α) (i : Nat) (d : α), i < l.length →
      (l.drop i).getLastD d = l.getLastD d := by
  intro l
  induction l with
  | nil => intro i d h; simp at h
  | cons a t ih =>
    intro i d h
    cases i with
    | zero => rfl
    | succ i =>
      have hi : i < t.length := by simpa using h
      have ht : t ≠ [] := by
        intro he; rw [he] at hi; simp at hi
      calc (t.drop i).getLastD d = t.getLastD d := ih i d hi
        _ = t.getLastD a := getLastD_indep t d a ht
        _ = (a :: t).getLastD d := by
              cases t with
              | nil => exact absurd rfl ht
              | cons b t' => rfl

/-- An in-range `set` as take/cons/drop surgery. -/
theorem set_eq_take_cons_drop {α : Type} :
    ∀ (l : List α) (i : Nat) (x : α), i < l.length →
      l.set i x = l.take i ++ x :: l.drop (i + 1) := by
  intro l
  induction l with
  | nil => intro i x h; simp at h
  | cons a t ih =>
    intro i x h
    cases i with
    | zero => simp
    | succ i =>
      have hi : i < t.length := by simpa using h
      simp [List.set_cons_succ, ih i x hi]

theorem length_swapRemove (l : List (List Nat)) (i : Nat) :
    (swapRemove l i).length = l.length - 1 := by
  simp [swapRemove]

/-- `swap_remove` keeps the same multiset as removing the element at the
index. -/
theorem swapRemove_perm (l : List (List Nat)) (i : Nat) (h : i < l.length) :
    (swapRemove l i).Perm (l.eraseIdx i) := by
  rcases Nat.lt_or_ge (i + 1) l.length with h2 | h2
  · -- i is not the last index: the last element moves to position i
    have hlen : l.dropLast.length = l.length - 1 := by simp
    have hidrop : i < l.dropLast.length := by omega
    have hset := set_eq_take_cons_drop l.dropLast i (l.getLastD []) hidrop
    have htake : l.dropLast.take i = l.take i := by
      rw [List.dropLast_eq_take, List.take_take]
      congr 1; omega
    have hdrop : l.dropLast.drop (i + 1) = (l.drop (i + 1)).dropLast := by
      have hn : l.length - 1 = (i + 1) + (l.length - 1 - (i + 1)) := by omega
      rw [List.dropLast_eq_take, hn, ← List.take_drop, List.dropLast_eq_take,
        List.length_drop]
      congr 1
      omega
    have hR : l.drop (i + 1) ≠ [] := by
      intro he
      have := congrArg List.length he
      simp at this; omega
    have hlast : l.getLastD [] = (l.drop (i + 1)).getLastD [] :=
      (getLastD_drop l (i + 1) [] h2).symm
    have hglue : (l.drop (i + 1)).getLastD [] :: (l.drop (i + 1)).dropLast
        ~ l.drop (i + 1) := by
      have hsplit : (l.drop (i + 1)).dropLast ++ [(l.drop (i + 1)).getLast hR]
          = l.drop (i + 1) := List.dropLast_append_getLast hR
      have hld : (l.drop (i + 1)).getLastD [] = (l.drop (i + 1)).getLast hR := by
        rw [List.getLastD_eq_getLast?, List.getLast?_eq_getLast _ hR]
        rfl
      calc (l.drop (i + 1)).getLastD [] :: (l.drop (i + 1)).dropLast
          ~ (l.drop (i + 1)).dropLast ++ [(l.drop (i + 1)).getLastD []] :=
            (List.perm_append_singleton _ _).symm
        _ = l.drop (i + 1) := by rw [hld, hsplit]
    calc swapRemove l i
        = l.take i ++ l.getLastD [] :: (l.drop (i + 1)).dropLast := by
          rw [swapRemove, hset, htake, hdrop]
      _ ~ l.take i ++ l.drop (i + 1) := by
          refine List.Perm.append_left _ ?_
          rw [hlast]; exact hglue
      _ = l.eraseIdx i := (List.eraseIdx_eq_take_drop_succ l i).symm
  · -- i is the last index: swap_remove is just a pop
    have hi : i = l.length - 1 := by omega
    have hset : l.dropLast.set i (l.getLastD []) = l.dropLast := by
      apply List.set_eq_of_length_le
      simp; omega
    have herase : l.eraseIdx i = l.dropLast := by
      rw [List.eraseIdx_eq_take_drop_succ, List.dropLast_eq_take]
      have hdropnil : l.drop (i + 1) = [] := by
        apply List.drop_eq_nil_of_le; omega
      have hieq : i = l.length - 1 := by omega
      rw [hdropnil, List.append_nil, hieq]
    rw [swapRemove, hset, herase]

theorem getD_set_ne {α : Type} :
    ∀ (l : List α) (i j : Nat) (x d : α), i ≠ j →
      (l.set j x).getD i d = l.getD i d := by
  intro l
  induction l with
  | nil => intro i j x d _; simp
  | cons a t ih =>
    intro i j x d hij
    cases j with
    | zero =>
      cases i with
      | zero => exact absurd rfl hij
      | succ i => simp [List.getD]
    | succ j =>
      cases i with
      | zero => simp [List.getD]
      | succ i =>
        simp only [List.set_cons_succ, List.getD_cons_succ]
        exact ih i j x d (by omega)

theorem getD_dropLast {α : Type} :
    ∀ (l : List α) (i : Nat) (d : α), i + 1 < l.length →
      l.dropLast.getD i d = l.getD i d := by
  intro l i d h
  have hi : i < l.dropLast.length := by simp; omega
  have hil : i < l.length := by omega
  rw [List.getD_eq_getElem?_getD, List.getD_eq_getElem?_getD,
    List.getElem?_eq_getElem hi, List.getElem?_eq_getElem hil]
  simp [List.getElem_dropLast]

theorem getD_eraseIdx_lt {α : Type} :
    ∀ (l : List α) (i j : Nat) (d : α), i < j →
      (l.eraseIdx j).getD i d = l.getD i d := by
  intro l
  induction l with
  | nil => intro i j d _; simp
  | cons a t ih =>
    intro i j d hij
    cases j with
    | zero => omega
    | succ j =>
      cases i with
      | zero => simp [List.getD]
      | succ i =>
        simp only [List.eraseIdx_cons_succ, List.getD_cons_succ]
        exact ih i j d (by omega)

/-- Removing the element at index `i` removes one occurrence of its value
from the multiset of elements. -/
theorem count_eraseIdx {α : Type} [DecidableEq α] :
    ∀ (l : List α) (i : Nat) (x d : α), i < l.length →
      (l.eraseIdx i).count x = l.count x - (if l.getD i d = x then 1 else 0) := by
  intro l
  induction l with
  | nil => intro i x d h; simp at h
  | cons a t ih =>
    intro i x d h
    cases i with
    | zero =>
      simp only [List.eraseIdx_cons_zero, List.getD_cons_zero, List.count_cons]
      by_cases hax : a = x <;> simp [hax, beq_iff_eq]
    | succ i =>
      have hi : i < t.length := by simpa using h
      have hcnt : (if t.getD i d = x then 1 else 0) ≤ t.count x := by
        by_cases hx : t.getD i d = x
        · have hmem : x ∈ t := by
            rw [← hx, List.getD_eq_getElem?_getD, List.getElem?_eq_getElem hi]
            exact List.getElem_mem hi
          rw [if_pos hx]
          exact List.one_le_count_iff.mpr hmem
        · rw [if_neg hx]
          exact Nat.zero_le _
      simp only [List.eraseIdx_cons_succ, List.getD_cons_succ, List.count_cons,
        ih i x d hi]
      have hgen : ∀ p q r : Nat, q ≤ r → r - q + p = r + p - q := by
        intro p q r hqr; omega
      exact hgen _ _ _ hcnt

/-- Lists that are permutations of one another and agree at index `i`
remain permutations after removing index `i` from each. -/
theorem perm_eraseIdx_of_perm (S E : List (List Nat)) (i : Nat)
    (hS : i < S.length) (hE : i < E.length)
    (hv : S.getD i [] = E.getD i []) (hp : S.Perm E) :
    (S.eraseIdx i).Perm (E.eraseIdx i) := by
  rw [List.perm_iff_count]
  intro x
  rw [count_eraseIdx S i x [] hS, count_eraseIdx E i x [] hE, hv,
    List.Perm.count_eq hp x]

/-- C2 counterexample.  On the collection `[[3,4,5,6,7],[1,2,3,4],[8,1,2]]`
with `min_overlap = 2` the source's loop (cursor resumes at 1 after a
merge) and the spec's reading (scan restarts from the first contig)
produce different results: the source returns
`([[8,1,2],[1,2,3,4,5,6,7]], 2)`, leaving the qualifying pair that
involves index 0 unmerged, while a restart-at-0 loop merges it and returns
`([[8,1,2,3,4,5,6,7]], 4)`. -/
theorem c2_counterexample :
    merge_contigs [[3, 4, 5, 6, 7], [1, 2, 3, 4], [8, 1, 2]] 2
      ≠ merge_contigs_restart0 [[3, 4, 5, 6, 7], [1, 2, 3, 4], [8, 1, 2]] 2 := by
  decide

/-- C2 amended.  In `merge_contigs`, whenever a qualifying pair `(i, j)` is
found, both contigs are removed from the collection (by swap-removal), the
newly joined contig is appended, and 2 merges are counted; the scan cursor
is assigned 0 but the loop increment then runs, so scanning of pairs
resumes from the second contig (index 1) of the updated collection, not
from the first.  The updated collection is, as a multiset, the old one
minus the two merged contigs plus the joined contig. -/
theorem c2_amended_merge_step (contigs : List (List Nat)) (m i j k : Nat)
    (nc : List Nat) (merged fuel : Nat)
    (hi : i < contigs.length)
    (hf : findMergeJ contigs (contigs.getD i []) m (i + 1) = some (j, (k, nc))) :
    mergeContigsGo m (fuel + 1) contigs i merged
      = mergeContigsGo m fuel (swapRemove (swapRemove contigs j) i ++ [nc]) 1 (merged + 2) ∧
    i < j ∧ j < contigs.length ∧
    merge_if_overlap (contigs.getD i []) (contigs.getD j []) m = some (k, nc) ∧
    (swapRemove (swapRemove contigs j) i ++ [nc]).Perm
      (nc :: (contigs.eraseIdx j).eraseIdx i) := by
  obtain ⟨hj1, hj2, hmio⟩ := findMergeJ_some contigs (contigs.getD i []) m (i + 1) j (k, nc) hf
  have hij : i < j := by omega
  have hlen2 : 2 ≤ contigs.length := by omega
  have hstep : mergeContigsGo m (fuel + 1) contigs i merged
      = mergeContigsGo m fuel (swapRemove (swapRemove contigs j) i ++ [nc]) 1 (merged + 2) := by
    simp only [mergeContigsGo, if_pos hi, hf]
  have hiS : i < (swapRemove contigs j).length := by
    rw [length_swapRemove]; omega
  have hiE : i < (contigs.eraseIdx j).length := by
    rw [List.length_eraseIdx_of_lt hj2]; omega
  have hSv : (swapRemove contigs j).getD i [] = contigs.getD i [] := by
    rw [swapRemove, getD_set_ne _ i j _ _ (by omega), getD_dropLast]
    omega
  have hEv : (contigs.eraseIdx j).getD i [] = contigs.getD i [] :=
    getD_eraseIdx_lt contigs i j [] hij
  have hperm : (swapRemove (swapRemove contigs j) i).Perm
      ((contigs.eraseIdx j).eraseIdx i) := by
    calc swapRemove (swapRemove contigs j) i
        ~ (swapRemove contigs j).eraseIdx i := swapRemove_perm _ i hiS
      _ ~ (contigs.eraseIdx j).eraseIdx i :=
          perm_eraseIdx_of_perm _ _ i hiS hiE (hSv.trans hEv.symm)
            (swapRemove_perm contigs j hj2)
  refine ⟨hstep, hij, hj2, hmio, ?_⟩
  calc swapRemove (swapRemove contigs j) i ++ [nc]
      ~ nc :: swapRemove (swapRemove contigs j) i := List.perm_append_singleton _ _
    _ ~ nc :: (contigs.eraseIdx j).eraseIdx i := List.Perm.cons nc hperm

/-- Witness for C2's amended statement at the concrete counterexample
collection (first qualifying pair is `(0, 1)`). -/
theorem c2_amended_merge_step_witness :
    mergeContigsGo 2 20 [[3, 4, 5, 6, 7], [1, 2, 3, 4], [8, 1, 2]] 0 0
      = mergeContigsGo 2 19
          (swapRemove (swapRemove [[3, 4, 5, 6, 7], [1, 2, 3, 4], [8, 1, 2]] 1) 0
            ++ [[1, 2, 3, 4, 5, 6, 7]]) 1 (0 + 2) ∧
    (0 : Nat) < 1 ∧ (1 : Nat) < 3 :=
  have h := c2_amended_merge_step [[3, 4, 5, 6, 7], [1, 2, 3, 4], [8, 1, 2]] 2 0 1 2
    [1, 2, 3, 4, 5, 6, 7] 0 19 (by decide) (by decide)
  ⟨h.1, h.2.1, by decide⟩

/-! ### Containment removal (`remove_contained_contigs`)

The marking pass is data-parallel in the source; the spec notes the marks
are write-once booleans, so the sequential in-order schedule modelled here
is one faithful execution of it. -/

/-- The slice comparison `contig[pos .. pos + sub.len()] == sub[..]`. -/
def containsAt (contig sub : List Nat) (pos : Nat) : Bool :=
  decide ((contig.drop pos).take sub.length = sub)

/-- `Assembler::is_contig_contains`: brute-force scan for `sub` as a
contiguous slice of `contig` (positions `0 ≤ pos ≤ len contig - len sub`). -/
def is_contig_contains (contig sub : List Nat) : Bool :=
  if contig.length < sub.length then false
  else (List.range (contig.length - sub.length + 1)).any (containsAt contig sub)

/-- The marking pass body for one outer index `i` against inner indices
`j, j+1, ...`; `flags` is the `to_remove` array.  Marked rows are skipped;
when the row's own contig is found contained in a later one, `i` itself is
marked and the row breaks. -/
def markRowGo (contigs : List (List Nat)) (ci : List Nat) (i : Nat) :
    Nat → List Bool → Nat → List Bool
  | 0, flags, _ => flags
  | fuel + 1, flags, j =>
    if j < contigs.length then
      if flags.getD j false = true then markRowGo contigs ci i fuel flags (j + 1)
      else if (contigs.getD j []).length < ci.length
          ∧ is_contig_contains ci (contigs.getD j []) = true then
        markRowGo contigs ci i fuel (flags.set j true) (j + 1)
      else if is_contig_contains (contigs.getD j []) ci = true then
        flags.set i true
      else markRowGo contigs ci i fuel flags (j + 1)
    else flags

/-- One row of the marking pass (the outer closure of the parallel
for-each): a row already marked for removal returns immediately. -/
def markRow (contigs : List (List Nat)) (flags : List Bool) (i : Nat) : List Bool :=
  if flags.getD i false = true then flags
  else markRowGo contigs (contigs.getD i []) i (contigs.length - (i + 1)) flags (i + 1)

/-- All rows of the marking pass, in index order. -/
def markAllGo (contigs : List (List Nat)) : Nat → List Bool → Nat → List Bool
  | 0, flags, _ => flags
  | fuel + 1, flags, i =>
    if i < contigs.length then
      markAllGo contigs fuel (markRow contigs flags i) (i + 1)
    else flags

/-- The `to_remove` array after the whole marking pass. -/
def removeFlags (sorted : List (List Nat)) : List Bool :=
  markAllGo sorted sorted.length (List.replicate sorted.length false) 0

/-- Keep the contigs whose flag is unset (the final `filter_map`). -/
def filterByFlags (l : List (List Nat)) (flags : List Bool) : List (List Nat) :=
  (l.zip flags).filterMap (fun p => if p.2 then none else some p.1)

/-- `Assembler::remove_contained_contigs`: sort by descending length, run
the marking pass, drop the marked contigs, and report how many were
marked. -/
def remove_contained_contigs (contigs : List (List Nat)) : List (List Nat) × Nat :=
  (filterByFlags (sortByLenDesc contigs) (removeFlags (sortByLenDesc contigs)),
   (removeFlags (sortByLenDesc contigs)).count true)

/-- The pair condition the marking pass acts on, for the row contig `a`
against a later contig `b`: `a` strictly longer and containing `b`, or
`b` containing `a`. -/
def badPair (a b : List Nat) : Prop :=
  (b.length < a.length ∧ is_contig_contains a b = true) ∨
  is_contig_contains b a = true

instance (a b) : Decidable (badPair a b) := by
  unfold badPair; infer_instance

/-- Pointwise order on flag arrays: marks are only ever added. -/
def FlagsLe (f g : List Bool) : Prop :=
  f.length = g.length ∧ ∀ t : Nat, f.getD t false = true → g.getD t false = true

theorem flagsLe_refl (f : List Bool) : FlagsLe f f :=
  ⟨rfl, fun _ h => h⟩

theorem flagsLe_trans {f g h : List Bool} (h1 : FlagsLe f g) (h2 : FlagsLe g h) :
    FlagsLe f h :=
  ⟨h1.1.trans h2.1, fun t ht => h2.2 t (h1.2 t ht)⟩

theorem getD_set_self {α : Type} (l : List α) (j : Nat) (x d : α)
    (h : j < l.length) : (l.set j x).getD j d = x := by
  have hj : j < (l.set j x).length := by simpa using h
  rw [List.getD_eq_getElem?_getD, List.getElem?_eq_getElem hj]
  simp

theorem flagsLe_set_true (f : List Bool) (j : Nat) : FlagsLe f (f.set j true) := by
  refine ⟨by simp, fun t ht => ?_⟩
  by_cases htj : t = j
  · subst htj
    by_cases hlt : t < f.length
    · rw [getD_set_self _ _ _ _ hlt]
    · rw [List.set_eq_of_length_le (by omega)]
      exact ht
  · rw [getD_set_ne _ t j _ _ htj]
    exact ht

theorem markRowGo_le (contigs : List (List Nat)) (ci : List Nat) (i : Nat) :
    ∀ (fuel : Nat) (flags : List Bool) (j : Nat),
      FlagsLe flags (markRowGo contigs ci i fuel flags j) := by
  intro fuel
  induction fuel with
  | zero => intro flags j; exact flagsLe_refl _
  | succ fuel ih =>
    intro flags j
    by_cases hj : j < contigs.length
    · by_cases h1 : flags.getD j false = true
      · simp only [markRowGo, if_pos hj, if_pos h1]
        exact ih flags (j + 1)
      · by_cases h2 : (contigs.getD j []).length < ci.length
            ∧ is_contig_contains ci (contigs.getD j []) = true
        · simp only [markRowGo, if_pos hj, if_neg h1, if_pos h2]
          exact flagsLe_trans (flagsLe_set_true flags j) (ih _ (j + 1))
        · by_cases h3 : is_contig_contains (contigs.getD j []) ci = true
          · simp only [markRowGo, if_pos hj, if_neg h1, if_neg h2, if_pos h3]
            exact flagsLe_set_true flags i
          · simp only [markRowGo, if_pos hj, if_neg h1, if_neg h2, if_neg h3]
            exact ih flags (j + 1)
    · simp only [markRowGo, if_neg hj]
      exact flagsLe_refl _

theorem markRow_le (contigs : List (List Nat)) (flags : List Bool) (i : Nat) :
    FlagsLe flags (markRow contigs flags i) := by
  by_cases h : flags.getD i false = true
  · simp only [markRow, if_pos h]; exact flagsLe_refl _
  · simp only [markRow, if_neg h]; exact markRowGo_le ..

theorem markAllGo_le (contigs : List (List Nat)) :
    ∀ (fuel : Nat) (flags : List Bool) (i : Nat),
      FlagsLe flags (markAllGo contigs fuel flags i) := by
  intro fuel
  induction fuel with
  | zero => intro flags i; exact flagsLe_refl _
  | succ fuel ih =>
    intro flags i
    by_cases hi : i < contigs.length
    · simp only [markAllGo, if_pos hi]
      exact flagsLe_trans (markRow_le contigs flags i) (ih _ (i + 1))
    · simp only [markAllGo, if_neg hi]
      exact flagsLe_refl _

/-- A row that finishes with both its own flag and a later flag `q` unset
has verified that the pair `(row, q)` is not a containment pair. -/
theorem markRowGo_clean (contigs : List (List Nat)) (ci : List Nat) (i : Nat) :
    ∀ (fuel : Nat) (flags : List Bool) (j : Nat),
      contigs.length ≤ j + fuel →
      flags.length = contigs.length →
      i < contigs.length →
      ∀ q, j ≤ q → q < contigs.length →
        (markRowGo contigs ci i fuel flags j).getD i false = false →
        (markRowGo contigs ci i fuel flags j).getD q false = false →
        ¬ badPair ci (contigs.getD q []) := by
  intro fuel
  induction fuel with
  | zero => intro flags j hf _ _ q hq1 hq2 _ _; omega
  | succ fuel ih =>
    intro flags j hf hlen hi q hq1 hq2 hfi hfq
    have hj : j < contigs.length := by omega
    by_cases h1 : flags.getD j false = true
    · simp only [markRowGo] at hfi hfq
      rw [if_pos hj, if_pos h1] at hfi hfq
      rcases Nat.eq_or_lt_of_le hq1 with hqj | hqj
      · exfalso
        subst hqj
        have := (markRowGo_le contigs ci i fuel flags (j + 1)).2 j h1
        rw [this] at hfq
        cases hfq
      · exact ih flags (j + 1) (by omega) hlen hi q (by omega) hq2 hfi hfq
    · by_cases h2 : (contigs.getD j []).length < ci.length
          ∧ is_contig_contains ci (contigs.getD j []) = true
      · simp only [markRowGo] at hfi hfq
        rw [if_pos hj, if_neg h1, if_pos h2] at hfi hfq
        rcases Nat.eq_or_lt_of_le hq1 with hqj | hqj
        · exfalso
          subst hqj
          have hset : (flags.set j true).getD j false = true :=
            getD_set_self _ _ _ _ (by omega)
          have := (markRowGo_le contigs ci i fuel (flags.set j true) (j + 1)).2 j hset
          rw [this] at hfq
          cases hfq
        · exact ih (flags.set j true) (j + 1) (by omega) (by simpa using hlen)
            hi q (by omega) hq2 hfi hfq
      · by_cases h3 : is_contig_contains (contigs.getD j []) ci = true
        · simp only [markRowGo] at hfi
          rw [if_pos hj, if_neg h1, if_neg h2, if_pos h3] at hfi
          exfalso
          rw [getD_set_self _ _ _ _ (by omega)] at hfi
          cases hfi
        · simp only [markRowGo] at hfi hfq
          rw [if_pos hj, if_neg h1, if_neg h2, if_neg h3] at hfi hfq
          rcases Nat.eq_or_lt_of_le hq1 with hqj | hqj
          · rw [hqj] at h2 h3
            intro hbad
            rcases hbad with hbad | hbad
            · exact h2 hbad
            · exact h3 hbad
          · exact ih flags (j + 1) (by omega) hlen hi q (by omega) hq2 hfi hfq

/-- After the whole marking pass, any two surviving indices have been
checked against each other. -/
theorem markAllGo_clean (contigs : List (List Nat)) :
    ∀ (fuel : Nat) (flags : List Bool) (r : Nat),
      contigs.length ≤ r + fuel →
      flags.length = contigs.length →
      ∀ p q, r ≤ p → p < q → q < contigs.length →
        (markAllGo contigs fuel flags r).getD p false = false →
        (markAllGo contigs fuel flags r).getD q false = false →
        ¬ badPair (contigs.getD p []) (contigs.getD q []) := by
  intro fuel
  induction fuel with
  | zero => intro flags r hf _ p q hp hpq hq _ _; omega
  | succ fuel ih =>
    intro flags r hf hlen p q hp hpq hq hfp hfq
    have hr : r < contigs.length := by omega
    simp only [markAllGo] at hfp hfq
    rw [if_pos hr] at hfp hfq
    have hlen1 : (markRow contigs flags r).length = contigs.length := by
      rw [← (markRow_le contigs flags r).1]; exact hlen
    rcases Nat.eq_or_lt_of_le hp with hpr | hpr
    · -- p is the row just processed (p is replaced by r here)
      subst hpr
      have hrow_p : (markRow contigs flags r).getD r false = false := by
        cases hb : (markRow contigs flags r).getD r false with
        | false => rfl
        | true =>
          have := (markAllGo_le contigs fuel (markRow contigs flags r) (r + 1)).2 r hb
          rw [this] at hfp; cases hfp
      have hrow_q : (markRow contigs flags r).getD q false = false := by
        cases hb : (markRow contigs flags r).getD q false with
        | false => rfl
        | true =>
          have := (markAllGo_le contigs fuel (markRow contigs flags r) (r + 1)).2 q hb
          rw [this] at hfq; cases hfq
      by_cases hown : flags.getD r false = true
      · exfalso
        rw [markRow, if_pos hown] at hrow_p
        rw [hown] at hrow_p; cases hrow_p
      · rw [markRow, if_neg hown] at hrow_p hrow_q
        exact markRowGo_clean contigs (contigs.getD r []) r
          (contigs.length - (r + 1)) flags (r + 1) (by omega) hlen (by omega)
          q (by omega) hq hrow_p hrow_q
    · exact ih (markRow contigs flags r) (r + 1) (by omega) hlen1
        p q (by omega) hpq hq hfp hfq

theorem mem_filterByFlags :
    ∀ (l : List (List Nat)) (flags : List Bool) (x : List Nat),
      x ∈ filterByFlags l flags →
      ∃ q, q < l.length ∧ q < flags.length ∧
        flags.getD q false = false ∧ l.getD q [] = x := by
  intro l
  induction l with
  | nil => intro flags x h; simp [filterByFlags] at h
  | cons a t ih =>
    intro flags x h
    cases flags with
    | nil => simp [filterByFlags] at h
    | cons b ft =>
      simp only [filterByFlags, List.zip_cons_cons, List.filterMap_cons] at h
      cases b with
      | true =>
        simp only [if_pos rfl] at h
        obtain ⟨q, hq1, hq2, hq3, hq4⟩ := ih ft x h
        exact ⟨q + 1, by simpa using hq1, by simpa using hq2, hq3, hq4⟩
      | false =>
        simp only [Bool.false_eq_true, if_neg] at h
        rcases List.mem_cons.mp h with hx | hx
        · exact ⟨0, by simp, by simp, rfl, hx.symm⟩
        · obtain ⟨q, hq1, hq2, hq3, hq4⟩ := ih ft x hx
          exact ⟨q + 1, by simpa using hq1, by simpa using hq2, hq3, hq4⟩

theorem filterByFlags_pairwise (R : List Nat → List Nat → Prop) :
    ∀ (l : List (List Nat)) (flags : List Bool),
      (∀ p q, p < q → q < l.length →
        flags.getD p false = false → flags.getD q false = false →
        R (l.getD p []) (l.getD q [])) →
      (filterByFlags l flags).Pairwise R := by
  intro l
  induction l with
  | nil => intro flags _; simp [filterByFlags]
  | cons a t ih =>
    intro flags H
    cases flags with
    | nil => simp [filterByFlags]
    | cons b ft =>
      have Hshift : ∀ p q, p < q → q < t.length →
          ft.getD p false = false → ft.getD q false = false →
          R (t.getD p []) (t.getD q []) := by
        intro p q hpq hq hfp hfq
        have := H (p + 1) (q + 1) (by omega) (by simpa using hq)
          (by simpa using hfp) (by simpa using hfq)
        simpa using this
      simp only [filterByFlags, List.zip_cons_cons, List.filterMap_cons]
      cases b with
      | true => simpa [filterByFlags] using ih ft Hshift
      | false =>
        simp only [Bool.false_eq_true, if_neg]
        refine List.pairwise_cons.mpr ⟨?_, ih ft Hshift⟩
        intro x hx
        obtain ⟨q, hq1, hq2, hq3, hq4⟩ := mem_filterByFlags t ft x hx
        have := H 0 (q + 1) (by omega) (by simpa using hq1) rfl
          (by simpa using hq3)
        rw [← hq4]
        simpa using this

theorem filterByFlags_sublist :
    ∀ (l : List (List Nat)) (flags : List Bool),
      (filterByFlags l flags).Sublist l := by
  intro l
  induction l with
  | nil => intro flags; simp [filterByFlags]
  | cons a t ih =>
    intro flags
    cases flags with
    | nil => simp [filterByFlags]
    | cons b ft =>
      simp only [filterByFlags, List.zip_cons_cons, List.filterMap_cons]
      cases b with
      | true =>
        simp only [if_pos rfl]
        exact (ih ft).trans (List.sublist_cons_self a t)
      | false =>
        simp only [Bool.false_eq_true, if_neg]
        exact List.Sublist.cons₂ a (ih ft)

theorem getD_replicate_false : ∀ (n t : Nat),
    (List.replicate n false).getD t false = false := by
  intro n
  induction n with
  | zero => intro t; simp
  | succ n ih =>
    intro t
    cases t with
    | zero => simp [List.replicate]
    | succ t => exact ih t

/-- A row whose contig is in no containment pair with any later contig
leaves an all-clear flag array untouched. -/
theorem markRowGo_id (contigs : List (List Nat)) (ci : List Nat) (i : Nat) :
    ∀ (fuel j : Nat),
      (∀ q, j ≤ q → q < contigs.length → ¬ badPair ci (contigs.getD q [])) →
      markRowGo contigs ci i fuel (List.replicate contigs.length false) j
        = List.replicate contigs.length false := by
  intro fuel
  induction fuel with
  | zero => intro j _; rfl
  | succ fuel ih =>
    intro j H
    by_cases hj : j < contigs.length
    · have hflag : (List.replicate contigs.length false).getD j false = false :=
        getD_replicate_false _ _
      have hbad := H j (le_refl _) hj
      have h2 : ¬ ((contigs.getD j []).length < ci.length
          ∧ is_contig_contains ci (contigs.getD j []) = true) :=
        fun hc => hbad (Or.inl hc)
      have h3 : ¬ is_contig_contains (contigs.getD j []) ci = true :=
        fun hc => hbad (Or.inr hc)
      simp only [markRowGo]
      rw [if_pos hj, if_neg (by rw [hflag]; exact Bool.false_ne_true),
        if_neg h2, if_neg h3]
      exact ih (j + 1) (fun q hq1 hq2 => H q (by omega) hq2)
    · simp only [markRowGo]
      rw [if_neg hj]

/-- On a collection with no containment pair in scan order, the whole
marking pass marks nothing. -/
theorem markAllGo_id (contigs : List (List Nat)) :
    ∀ (fuel r : Nat),
      (∀ p q, p < q → q < contigs.length →
        ¬ badPair (contigs.getD p []) (contigs.getD q [])) →
      markAllGo contigs fuel (List.replicate contigs.length false) r
        = List.replicate contigs.length false := by
  intro fuel
  induction fuel with
  | zero => intro r _; rfl
  | succ fuel ih =>
    intro r H
    by_cases hr : r < contigs.length
    · have hrow : markRow contigs (List.replicate contigs.length false) r
          = List.replicate contigs.length false := by
        rw [markRow, if_neg (by rw [getD_replicate_false]; exact Bool.false_ne_true)]
        exact markRowGo_id contigs (contigs.getD r []) r _ (r + 1)
          (fun q hq1 hq2 => H r q (by omega) hq2)
      simp only [markAllGo]
      rw [if_pos hr, hrow]
      exact ih (r + 1) H
    · simp only [markAllGo]
      rw [if_neg hr]

theorem filterByFlags_replicate_false (l : List (List Nat)) :
    filterByFlags l (List.replicate l.length false) = l := by
  induction l with
  | nil => rfl
  | cons a t ih =>
    show (((a, false) :: t.zip (List.replicate t.length false)).filterMap
      (fun p => if p.2 then none else some p.1)) = a :: t
    rw [List.filterMap_cons_some (by rfl)]
    exact congrArg (a :: ·) ih

theorem count_true_replicate_false (n : Nat) :
    (List.replicate n false).count true = 0 := by
  induction n with
  | zero => rfl
  | succ n ih => simpa [List.replicate, List.count_cons] using ih

theorem length_removeFlags (sorted : List (List Nat)) :
    (removeFlags sorted).length = sorted.length := by
  have := (markAllGo_le sorted sorted.length
    (List.replicate sorted.length false) 0).1
  rw [removeFlags, ← this]
  simp

/-- Index-wise reading of a `Pairwise` property. -/
theorem pairwise_getD {R : List Nat → List Nat → Prop}
    {l : List (List Nat)} (h : l.Pairwise R) :
    ∀ p q, p < q → q < l.length → R (l.getD p []) (l.getD q []) := by
  intro p q hpq hq
  have hp : p < l.length := by omega
  rw [List.getD_eq_getElem?_getD, List.getD_eq_getElem?_getD,
    List.getElem?_eq_getElem hp, List.getElem?_eq_getElem hq]
  exact List.pairwise_iff_getElem.mp h p q hp hq hpq

/-- C8.  `remove_contained_contigs` is idempotent: run on its own output
(with no intervening merge) it removes nothing — it returns the collection
unchanged and a removal count of 0. -/
theorem c8_remove_contained_idempotent (contigs : List (List Nat)) :
    remove_contained_contigs (remove_contained_contigs contigs).1
      = ((remove_contained_contigs contigs).1, 0) := by
  set sorted := sortByLenDesc contigs with hsorted
  set flags := removeFlags sorted with hflags
  set out := filterByFlags sorted flags with hout
  have hlenf : flags.length = sorted.length := length_removeFlags sorted
  have hclean : ∀ p q, p < q → q < sorted.length →
      flags.getD p false = false → flags.getD q false = false →
      ¬ badPair (sorted.getD p []) (sorted.getD q []) := by
    intro p q hpq hq hfp hfq
    exact markAllGo_clean sorted sorted.length
      (List.replicate sorted.length false) 0 (by omega) (by simp)
      p q (by omega) hpq hq hfp hfq
  have hpw : out.Pairwise (fun a b => ¬ badPair a b) :=
    filterByFlags_pairwise _ sorted flags hclean
  have hsorted_out : LenSorted out :=
    (lenSorted_sortByLenDesc contigs).sublist (filterByFlags_sublist sorted flags)
  have hsort2 : sortByLenDesc out = out := sortByLenDesc_of_sorted hsorted_out
  have hflags2 : removeFlags out = List.replicate out.length false := by
    rw [removeFlags]
    exact markAllGo_id out out.length 0 (pairwise_getD hpw)
  show (filterByFlags (sortByLenDesc out) (removeFlags (sortByLenDesc out)),
      (removeFlags (sortByLenDesc out)).count true) = (out, 0)
  rw [hsort2, hflags2, filterByFlags_replicate_false, count_true_replicate_false]

/-! ### The multigraph model (`Assembler`, `Node`, `Edge`)

The source keeps nodes in `Rc<RefCell<Node>>` cells shared between the
`nodes` map, the adjacency edges and the extracted paths.  The embedding
keeps every node's state in the `nodes` association list, keyed by the
node's `idx`, and represents each shared handle by that key; an `Edge`
therefore stores the keys of the two node cells its handles point at.
`HashMap`s become association lists in insertion order. -/

/-- `sbh_assembler::Node` (the derived `PartialEq` compares all three
fields). -/
structure Node where
  idx : Nat
  ideg : Nat
  odeg : Nat
deriving DecidableEq, Repr

/-- `sbh_assembler::Edge`: the two node handles (by key) and the consumed
flag. -/
structure Edge where
  pfx : Nat
  sfx : Nat
  used : Bool
deriving DecidableEq, Repr

abbrev Bucket := List Edge
abbrev Sufs := List (Nat × Bucket)
abbrev Graph := List (Nat × Sufs)

/-- `sbh_assembler::Assembler`. -/
structure Assembler where
  graph : Graph
  nodes : List (Nat × Node)
  paths : List (List Nat)
  cycles : List (List Nat)
  contigs : List (List Nat)
deriving DecidableEq, Repr

/-- `HashMap::get`. -/
def alLookup {α : Type} : List (Nat × α) → Nat → Option α
  | [], _ => none
  | (k', v) :: t, k => if k' = k then some v else alLookup t k

/-- `HashMap::entry(k).and_modify(f).or_insert(d)`. -/
def alUpsert {α : Type} : List (Nat × α) → Nat → (α → α) → α → List (Nat × α)
  | [], k, _, d => [(k, d)]
  | (k', v) :: t, k, f, d =>
    if k' = k then (k', f v) :: t else (k', v) :: alUpsert t k f d

/-- Overwrite the value at an existing key (mutation through a handle). -/
def alSet {α : Type} : List (Nat × α) → Nat → α → List (Nat × α)
  | [], _, _ => []
  | (k', v) :: t, k, w => if k' = k then (k', w) :: t else (k', v) :: alSet t k w

def keysOf {α : Type} (l : List (Nat × α)) : List Nat := l.map (·.1)

/-- A fresh (unconsumed) edge from the read's prefix node to its suffix
node. -/
def newEdge (pidx sidx : Nat) : Edge := ⟨pidx, sidx, false⟩

/-- `nodes.entry(pidx).and_modify(odeg += 1).or_insert(Node::new(pidx, 0, 1))`. -/
def bumpOdeg (nodes : List (Nat × Node)) (k : Nat) : List (Nat × Node) :=
  alUpsert nodes k (fun n => { n with odeg := n.odeg + 1 }) ⟨k, 0, 1⟩

/-- `nodes.entry(sidx).and_modify(ideg += 1).or_insert(Node::new(sidx, 1, 0))`. -/
def bumpIdeg (nodes : List (Nat × Node)) (k : Nat) : List (Nat × Node) :=
  alUpsert nodes k (fun n => { n with ideg := n.ideg + 1 }) ⟨k, 1, 0⟩

/-- `graph.entry(pidx).or_default().entry(sidx).or_default().push(edge)`. -/
def pushEdgeG (g : Graph) (p s : Nat) : Graph :=
  alUpsert g p
    (fun sufs => alUpsert sufs s (fun b => b ++ [newEdge p s]) [newEdge p s])
    [(s, [newEdge p s])]

/-- One iteration of the construction loop of `Assembler::new`: bump or
create the two endpoint nodes, then push the edge into the bucket keyed
`(pidx, sidx)`. -/
def addRead (gn : Graph × List (Nat × Node)) (pidx sidx : Nat) :
    Graph × List (Nat × Node) :=
  (pushEdgeG gn.1 pidx sidx, bumpIdeg (bumpOdeg gn.2 pidx) sidx)

/-- `Assembler::new`: encode each read's prefix and suffix k-mer (either
encoding may abort) and build the graph; the collections of paths, cycles
and contigs start empty. -/
def Assembler.new (reads : List (List Nat)) : Option Assembler :=
  (reads.foldlM (fun (gn : Graph × List (Nat × Node)) read =>
    match vec2idx read NodeType.Pfx, vec2idx read NodeType.Sfx with
    | some pidx, some sidx => some (addRead gn pidx sidx)
    | _, _ => none) (([], []) : Graph × List (Nat × Node))).map
    (fun (gn : Graph × List (Nat × Node)) => ⟨gn.1, gn.2, [], [], []⟩)

/-- Unconsumed edges in one bucket. -/
def bucketUnused (b : Bucket) : Nat := (b.filter (fun e => !e.used)).length

/-- Unconsumed edges in one node's outgoing adjacency. -/
def sufsUnused (sufs : Sufs) : Nat := (sufs.map (fun q => bucketUnused q.2)).sum

/-- Unconsumed edges whose source position in the graph is `k`. -/
def outUnused (g : Graph) (k : Nat) : Nat :=
  (g.map (fun p => if p.1 = k then sufsUnused p.2 else 0)).sum

def inUnusedSufs (sufs : Sufs) (k : Nat) : Nat :=
  (sufs.map (fun q => if q.1 = k then bucketUnused q.2 else 0)).sum

/-- Unconsumed edges whose destination position in the graph is `k`. -/
def inUnused (g : Graph) (k : Nat) : Nat :=
  (g.map (fun p => inUnusedSufs p.2 k)).sum

/-- All unconsumed edges. -/
def unusedTotal (g : Graph) : Nat := (g.map (fun p => sufsUnused p.2)).sum

/-- The degree invariant: every node's live `odeg` equals the number of
unconsumed edges with it as source, and its live `ideg` the number of
unconsumed edges with it as destination. -/
def dinv (g : Graph) (nodes : List (Nat × Node)) : Prop :=
  ∀ q ∈ nodes, q.2.odeg = outUnused g q.1 ∧ q.2.ideg = inUnused g q.1

instance (g : Graph) (nodes : List (Nat × Node)) : Decidable (dinv g nodes) := by
  unfold dinv; infer_instance

/-- Structural well-formedness of the graph state: node keys are distinct;
bucket keys within one adjacency are distinct; buckets are non-empty and
their edges' handles agree with the bucket's position; every key mentioned
by the graph has a node; a node's `idx` field is its key. -/
def gwf (g : Graph) (nodes : List (Nat × Node)) : Prop :=
  (keysOf nodes).Nodup ∧
  (∀ p ∈ g, (keysOf p.2).Nodup) ∧
  (∀ p ∈ g, ∀ q ∈ p.2, q.2 ≠ [] ∧ ∀ e ∈ q.2, e.pfx = p.1 ∧ e.sfx = q.1) ∧
  (∀ p ∈ g, p.1 ∈ keysOf nodes ∧ ∀ q ∈ p.2, q.1 ∈ keysOf nodes) ∧
  (∀ q ∈ nodes, q.2.idx = q.1)

instance (g : Graph) (nodes : List (Nat × Node)) : Decidable (gwf g nodes) := by
  unfold gwf; infer_instance

/-- The degree invariant, packaged on the assembler state. -/
def degInv (st : Assembler) : Prop := dinv st.graph st.nodes

instance (st : Assembler) : Decidable (degInv st) := by
  unfold degInv; infer_instance

/-- Structural well-formedness, packaged on the assembler state. -/
def graphWF (st : Assembler) : Prop := gwf st.graph st.nodes

instance (st : Assembler) : Decidable (graphWF st) := by
  unfold graphWF; infer_instance

/-! #### Association-list lemmas -/

theorem alLookup_upsert_self {α : Type} :
    ∀ (l : List (Nat × α)) (k : Nat) (f : α → α) (d : α),
      alLookup (alUpsert l k f d) k
        = some (match alLookup l k with | some v => f v | none => d) := by
  intro l
  induction l with
  | nil => intro k f d; simp [alLookup, alUpsert]
  | cons p t ih =>
    intro k f d
    obtain ⟨k', v⟩ := p
    by_cases hk : k' = k
    · subst hk
      simp [alUpsert, alLookup]
    · simp only [alUpsert, if_neg hk, alLookup, if_neg hk]
      exact ih k f d

theorem alLookup_upsert_ne {α : Type} :
    ∀ (l : List (Nat × α)) (k k0 : Nat) (f : α → α) (d : α), k0 ≠ k →
      alLookup (alUpsert l k f d) k0 = alLookup l k0 := by
  intro l
  induction l with
  | nil => intro k k0 f d h; simp [alLookup, alUpsert, Ne.symm h]
  | cons p t ih =>
    intro k k0 f d h
    obtain ⟨k', v⟩ := p
    by_cases hk : k' = k
    · subst hk
      simp only [alUpsert, if_pos rfl, alLookup]
      simp only [if_neg (show ¬ k' = k0 by omega)]
    · simp only [alUpsert, if_neg hk, alLookup]
      by_cases hk0 : k' = k0
      · simp [hk0]
      · simp only [if_neg hk0]
        exact ih k k0 f d h

theorem alLookup_set_self {α : Type} :
    ∀ (l : List (Nat × α)) (k : Nat) (w : α) (v : α),
      alLookup l k = some v → alLookup (alSet l k w) k = some w := by
  intro l
  induction l with
  | nil => intro k w v h; simp [alLookup] at h
  | cons p t ih =>
    intro k w v h
    obtain ⟨k', u⟩ := p
    by_cases hk : k' = k
    · subst hk
      simp [alSet, alLookup]
    · simp only [alLookup, if_neg hk] at h
      simp only [alSet, if_neg hk, alLookup, if_neg hk]
      exact ih k w v h

theorem alLookup_set_ne {α : Type} :
    ∀ (l : List (Nat × α)) (k k0 : Nat) (w : α), k0 ≠ k →
      alLookup (alSet l k w) k0 = alLookup l k0 := by
  intro l
  induction l with
  | nil => intro k k0 w h; simp [alSet]
  | cons p t ih =>
    intro k k0 w h
    obtain ⟨k', u⟩ := p
    by_cases hk : k' = k
    · subst hk
      simp only [alSet, if_pos rfl, alLookup]
      simp only [if_neg (show ¬ k' = k0 by omega)]
    · simp only [alSet, if_neg hk, alLookup]
      by_cases hk0 : k' = k0
      · simp [hk0]
      · simp only [if_neg hk0]
        exact ih k k0 w h

theorem keysOf_set {α : Type} :
    ∀ (l : List (Nat × α)) (k : Nat) (w : α), keysOf (alSet l k w) = keysOf l := by
  intro l
  induction l with
  | nil => intro k w; rfl
  | cons p t ih =>
    intro k w
    obtain ⟨k', u⟩ := p
    by_cases hk : k' = k
    · subst hk; simp [alSet, keysOf]
    · simp only [alSet, if_neg hk, keysOf, List.map_cons]
      have h2 := ih k w
      simp only [keysOf] at h2
      rw [h2]

theorem keysOf_upsert {α : Type} :
    ∀ (l : List (Nat × α)) (k : Nat) (f : α → α) (d : α),
      keysOf (alUpsert l k f d)
        = if k ∈ keysOf l then keysOf l else keysOf l ++ [k] := by
  intro l
  induction l with
  | nil => intro k f d; simp [alUpsert, keysOf]
  | cons p t ih =>
    intro k f d
    obtain ⟨k', v⟩ := p
    by_cases hk : k' = k
    · subst hk
      simp [alUpsert, keysOf]
    · simp only [alUpsert, if_neg hk, keysOf, List.map_cons]
      have h2 := ih k f d
      simp only [keysOf] at h2
      rw [h2]
      by_cases hmem : k ∈ List.map (fun x => x.1) t
      · simp [hmem, Ne.symm hk]
      · simp [hmem, Ne.symm hk]

theorem nodup_keys_upsert {α : Type} (l : List (Nat × α)) (k : Nat)
    (f : α → α) (d : α) (h : (keysOf l).Nodup) :
    (keysOf (alUpsert l k f d)).Nodup := by
  rw [keysOf_upsert]
  by_cases hmem : k ∈ keysOf l
  · simpa [hmem] using h
  · simp only [hmem, if_neg]
    simp [List.nodup_append, h, hmem]

theorem mem_keys_upsert_of_mem {α : Type} (l : List (Nat × α)) (k k0 : Nat)
    (f : α → α) (d : α) (h : k0 ∈ keysOf l) :
    k0 ∈ keysOf (alUpsert l k f d) := by
  rw [keysOf_upsert]
  by_cases hmem : k ∈ keysOf l <;> simp [hmem, h]

theorem mem_keys_upsert_self {α : Type} (l : List (Nat × α)) (k : Nat)
    (f : α → α) (d : α) : k ∈ keysOf (alUpsert l k f d) := by
  rw [keysOf_upsert]
  by_cases hmem : k ∈ keysOf l <;> simp [hmem]

theorem alLookup_mem {α : Type} :
    ∀ (l : List (Nat × α)) (k : Nat) (v : α),
      alLookup l k = some v → (k, v) ∈ l := by
  intro l
  induction l with
  | nil => intro k v h; simp [alLookup] at h
  | cons p t ih =>
    intro k v h
    obtain ⟨k', u⟩ := p
    by_cases hk : k' = k
    · subst hk
      rw [alLookup, if_pos rfl] at h
      obtain rfl := Option.some.injEq .. ▸ h
      exact List.mem_cons_self _ _
    · rw [alLookup, if_neg hk] at h
      exact List.mem_cons_of_mem _ (ih k v h)

theorem alLookup_eq_none_iff {α : Type} :
    ∀ (l : List (Nat × α)) (k : Nat), alLookup l k = none ↔ k ∉ keysOf l := by
  intro l
  induction l with
  | nil => intro k; simp [alLookup, keysOf]
  | cons p t ih =>
    intro k
    obtain ⟨k', u⟩ := p
    by_cases hk : k' = k
    · subst hk; simp [alLookup, keysOf]
    · simp only [alLookup, if_neg hk, keysOf, List.map_cons, List.mem_cons]
      rw [ih k]
      constructor
      · intro h hc
        rcases hc with hc | hc
        · exact hk hc.symm
        · exact h hc
      · intro h
        exact fun hc => h (Or.inr hc)

theorem alLookup_isSome_of_mem_keys {α : Type} (l : List (Nat × α)) (k : Nat)
    (h : k ∈ keysOf l) : ∃ v, alLookup l k = some v := by
  cases hl : alLookup l k with
  | none => exact absurd h ((alLookup_eq_none_iff l k).mp hl)
  | some v => exact ⟨v, rfl⟩

theorem alLookup_of_mem_nodup {α : Type} :
    ∀ (l : List (Nat × α)) (k : Nat) (v : α),
      (keysOf l).Nodup → (k, v) ∈ l → alLookup l k = some v := by
  intro l
  induction l with
  | nil => intro k v _ h; simp at h
  | cons p t ih =>
    intro k v hnd h
    obtain ⟨k', u⟩ := p
    have hnd' : (keysOf t).Nodup := (List.nodup_cons.mp hnd).2
    have hkpnt : k' ∉ keysOf t := (List.nodup_cons.mp hnd).1
    rcases List.mem_cons.mp h with h | h
    · obtain ⟨hk, hv⟩ := Prod.mk.injEq .. ▸ h
      subst hk; subst hv
      simp [alLookup]
    · have hkt : k ∈ keysOf t := by
        simp only [keysOf, List.mem_map]
        exact ⟨(k, v), h, rfl⟩
      have hk : k' ≠ k := fun he => hkpnt (he ▸ hkt)
      rw [alLookup, if_neg hk]
      exact ih k v hnd' h

/-- Entries of an upsert: an untouched old entry, the modified first
occurrence, or the freshly inserted default. -/
theorem mem_upsert {α : Type} :
    ∀ (l : List (Nat × α)) (k : Nat) (f : α → α) (d : α) (p : Nat × α),
      p ∈ alUpsert l k f d →
      p ∈ l ∨ (∃ v, alLookup l k = some v ∧ p = (k, f v)) ∨
        (alLookup l k = none ∧ p = (k, d)) := by
  intro l
  induction l with
  | nil =>
    intro k f d p h
    simp only [alUpsert, List.mem_singleton] at h
    exact Or.inr (Or.inr ⟨rfl, h⟩)
  | cons q t ih =>
    intro k f d p h
    obtain ⟨k', v⟩ := q
    by_cases hk : k' = k
    · subst hk
      rw [alUpsert, if_pos rfl] at h
      rcases List.mem_cons.mp h with h | h
      · exact Or.inr (Or.inl ⟨v, by simp [alLookup], h⟩)
      · exact Or.inl (List.mem_cons_of_mem _ h)
    · rw [alUpsert, if_neg hk] at h
      rcases List.mem_cons.mp h with h | h
      · exact Or.inl (h ▸ List.mem_cons_self _ _)
      · rcases ih k f d p h with h | ⟨v', hv1, hv2⟩ | ⟨h1, h2⟩
        · exact Or.inl (List.mem_cons_of_mem _ h)
        · exact Or.inr (Or.inl ⟨v', by rwa [alLookup, if_neg hk], hv2⟩)
        · exact Or.inr (Or.inr ⟨by rwa [alLookup, if_neg hk], h2⟩)

/-- Entries of a set: an untouched old entry or the replaced first
occurrence. -/
theorem mem_set {α : Type} :
    ∀ (l : List (Nat × α)) (k : Nat) (w : α) (p : Nat × α),
      p ∈ alSet l k w → p ∈ l ∨ p = (k, w) := by
  intro l
  induction l with
  | nil => intro k w p h; simp [alSet] at h
  | cons q t ih =>
    intro k w p h
    obtain ⟨k', v⟩ := q
    by_cases hk : k' = k
    · subst hk
      rw [alSet, if_pos rfl] at h
      rcases List.mem_cons.mp h with h | h
      · exact Or.inr h
      · exact Or.inl (List.mem_cons_of_mem _ h)
    · rw [alSet, if_neg hk] at h
      rcases List.mem_cons.mp h with h | h
      · exact Or.inl (h ▸ List.mem_cons_self _ _)
      · rcases ih k w p h with h | h
        · exact Or.inl (List.mem_cons_of_mem _ h)
        · exact Or.inr h

/-! #### Counting lemmas for graph construction -/

theorem sufsUnused_cons (s : Nat) (b : Bucket) (t : Sufs) :
    sufsUnused ((s, b) :: t) = bucketUnused b + sufsUnused t := by
  simp [sufsUnused]

theorem outUnused_cons (p : Nat) (sufs : Sufs) (t : Graph) (k : Nat) :
    outUnused ((p, sufs) :: t) k
      = (if p = k then sufsUnused sufs else 0) + outUnused t k := by
  simp [outUnused]

theorem inUnusedSufs_cons (s : Nat) (b : Bucket) (t : Sufs) (k : Nat) :
    inUnusedSufs ((s, b) :: t) k
      = (if s = k then bucketUnused b else 0) + inUnusedSufs t k := by
  simp [inUnusedSufs]

theorem inUnused_cons (p : Nat) (sufs : Sufs) (t : Graph) (k : Nat) :
    inUnused ((p, sufs) :: t) k = inUnusedSufs sufs k + inUnused t k := by
  simp [inUnused]

theorem unusedTotal_cons (p : Nat) (sufs : Sufs) (t : Graph) :
    unusedTotal ((p, sufs) :: t) = sufsUnused sufs + unusedTotal t := by
  simp [unusedTotal]

theorem bucketUnused_push (b : Bucket) (p s : Nat) :
    bucketUnused (b ++ [newEdge p s]) = bucketUnused b + 1 := by
  simp [bucketUnused, newEdge, List.filter_append]

theorem sufsUnused_push (p s : Nat) :
    ∀ (sufs : Sufs),
      sufsUnused (alUpsert sufs s (fun b => b ++ [newEdge p s]) [newEdge p s])
        = sufsUnused sufs + 1 := by
  intro sufs
  induction sufs with
  | nil => simp [alUpsert, sufsUnused, bucketUnused, newEdge]
  | cons q t ih =>
    obtain ⟨s', b⟩ := q
    by_cases hs : s' = s
    · subst hs
      simp only [alUpsert, if_pos rfl, if_true]
      rw [sufsUnused_cons, sufsUnused_cons, bucketUnused_push]
      omega
    · simp only [alUpsert, if_neg hs]
      rw [sufsUnused_cons, sufsUnused_cons, ih]
      omega

theorem inUnusedSufs_push (p s k : Nat) :
    ∀ (sufs : Sufs),
      inUnusedSufs (alUpsert sufs s (fun b => b ++ [newEdge p s]) [newEdge p s]) k
        = inUnusedSufs sufs k + (if s = k then 1 else 0) := by
  intro sufs
  induction sufs with
  | nil =>
    simp only [alUpsert]
    rw [inUnusedSufs_cons]
    by_cases hs : s = k <;> simp [hs, inUnusedSufs, bucketUnused, newEdge]
  | cons q t ih =>
    obtain ⟨s', b⟩ := q
    by_cases hs : s' = s
    · subst hs
      simp only [alUpsert, if_pos rfl, if_true]
      rw [inUnusedSufs_cons, inUnusedSufs_cons, bucketUnused_push]
      by_cases hk : s' = k <;> simp [hk]
      omega
    · simp only [alUpsert, if_neg hs]
      rw [inUnusedSufs_cons, inUnusedSufs_cons, ih]
      omega

theorem outUnused_push (p s k : Nat) :
    ∀ (g : Graph),
      outUnused (pushEdgeG g p s) k
        = outUnused g k + (if p = k then 1 else 0) := by
  intro g
  induction g with
  | nil =>
    simp only [pushEdgeG, alUpsert]
    rw [outUnused_cons]
    by_cases hp : p = k <;>
      simp [hp, outUnused, sufsUnused, bucketUnused, newEdge]
  | cons q t ih =>
    obtain ⟨p', sufs⟩ := q
    by_cases hp : p' = p
    · subst hp
      simp only [pushEdgeG, alUpsert, if_pos rfl, if_true]
      rw [outUnused_cons, outUnused_cons, sufsUnused_push]
      by_cases hk : p' = k <;> simp [hk]
      omega
    · simp only [pushEdgeG, alUpsert, if_neg hp]
      rw [outUnused_cons, outUnused_cons]
      have h2 := ih
      simp only [pushEdgeG] at h2
      rw [h2]
      omega

theorem inUnused_push (p s k : Nat) :
    ∀ (g : Graph),
      inUnused (pushEdgeG g p s) k
        = inUnused g k + (if s = k then 1 else 0) := by
  intro g
  induction g with
  | nil =>
    simp only [pushEdgeG, alUpsert]
    rw [inUnused_cons]
    by_cases hs : s = k <;>
      simp [hs, inUnused, inUnusedSufs, bucketUnused, newEdge]
  | cons q t ih =>
    obtain ⟨p', sufs⟩ := q
    by_cases hp : p' = p
    · subst hp
      simp only [pushEdgeG, alUpsert, if_pos rfl, if_true]
      rw [inUnused_cons, inUnused_cons, inUnusedSufs_push]
      omega
    · simp only [pushEdgeG, alUpsert, if_neg hp]
      rw [inUnused_cons, inUnused_cons]
      have h2 := ih
      simp only [pushEdgeG] at h2
      rw [h2]
      omega

theorem outUnused_eq_zero_of_not_mem (k : Nat) :
    ∀ (g : Graph), k ∉ keysOf g → outUnused g k = 0 := by
  intro g
  induction g with
  | nil => intro _; rfl
  | cons q t ih =>
    intro h
    obtain ⟨p, sufs⟩ := q
    have hp : p ≠ k := fun he => h (by simp [keysOf, he])
    have ht : k ∉ keysOf t := fun hm => h (by simp [keysOf] at hm ⊢; exact Or.inr hm)
    rw [outUnused_cons, if_neg hp, ih ht]

theorem inUnusedSufs_eq_zero_of (k : Nat) :
    ∀ (sufs : Sufs), (∀ q ∈ sufs, q.1 ≠ k) → inUnusedSufs sufs k = 0 := by
  intro sufs
  induction sufs with
  | nil => intro _; rfl
  | cons q t ih =>
    intro h
    obtain ⟨s, b⟩ := q
    rw [inUnusedSufs_cons, if_neg (h (s, b) (by simp)), ih (fun q hq => h q (by simp [hq]))]

theorem inUnused_eq_zero_of (k : Nat) :
    ∀ (g : Graph), (∀ p ∈ g, ∀ q ∈ p.2, q.1 ≠ k) → inUnused g k = 0 := by
  intro g
  induction g with
  | nil => intro _; rfl
  | cons q t ih =>
    intro h
    obtain ⟨p, sufs⟩ := q
    rw [inUnused_cons, inUnusedSufs_eq_zero_of k sufs (h (p, sufs) (by simp)),
      ih (fun p' hp' q' hq' => h p' (by simp [hp']) q' hq')]

/-- Lookup-form degree invariant: present keys satisfy the degree
equations, absent keys have zero incident unconsumed edges. -/
def dinvL (g : Graph) (nodes : List (Nat × Node)) : Prop :=
  ∀ k : Nat,
    match alLookup nodes k with
    | some n => n.odeg = outUnused g k ∧ n.ideg = inUnused g k
    | none => outUnused g k = 0 ∧ inUnused g k = 0

theorem dinv_of_dinvL {g : Graph} {nodes : List (Nat × Node)}
    (hnd : (keysOf nodes).Nodup) (h : dinvL g nodes) : dinv g nodes := by
  intro q hq
  have hl : alLookup nodes q.1 = some q.2 :=
    alLookup_of_mem_nodup nodes q.1 q.2 hnd (by simpa using hq)
  have := h q.1
  rw [hl] at this
  exact this

theorem dinvL_of_dinv {g : Graph} {nodes : List (Nat × Node)}
    (hwf : gwf g nodes) (h : dinv g nodes) : dinvL g nodes := by
  intro k
  cases hl : alLookup nodes k with
  | some n => exact h (k, n) (alLookup_mem nodes k n hl)
  | none =>
    have habs : k ∉ keysOf nodes := (alLookup_eq_none_iff nodes k).mp hl
    have hgk : k ∉ keysOf g := by
      intro hm
      simp only [keysOf, List.mem_map] at hm
      obtain ⟨p, hp, hpk⟩ := hm
      exact habs (hpk ▸ (hwf.2.2.2.1 p hp).1)
    have hik : ∀ p ∈ g, ∀ q ∈ p.2, q.1 ≠ k := by
      intro p hp q hq he
      exact habs (he ▸ (hwf.2.2.2.1 p hp).2 q hq)
    exact ⟨outUnused_eq_zero_of_not_mem k g hgk, inUnused_eq_zero_of k g hik⟩

/-- The degree invariant survives the addition of one read's edge. -/
theorem dinvL_addRead (g : Graph) (nodes : List (Nat × Node)) (p s : Nat)
    (h : dinvL g nodes) :
    dinvL (pushEdgeG g p s) (bumpIdeg (bumpOdeg nodes p) s) := by
  intro k
  have hout := outUnused_push p s k g
  have hin := inUnused_push p s k g
  by_cases hks : k = s
  · subst hks
    rw [bumpIdeg, alLookup_upsert_self]
    by_cases hkp : k = p
    · -- self-loop: both endpoints are the same node cell
      subst hkp
      rw [bumpOdeg, alLookup_upsert_self]
      have hk := h k
      cases hl : alLookup nodes k with
      | some n =>
        rw [hl] at hk
        simp only [hl]
        rw [hout, hin]
        simp only [if_pos rfl, if_true]
        exact ⟨by omega, by omega⟩
      | none =>
        rw [hl] at hk
        simp only [hl]
        rw [hout, hin]
        simp only [if_pos rfl, if_true]
        exact ⟨by omega, by omega⟩
    · rw [bumpOdeg, alLookup_upsert_ne nodes p k _ _ hkp]
      have hk := h k
      cases hl : alLookup nodes k with
      | some n =>
        rw [hl] at hk
        simp only [hl]
        rw [hout, hin]
        rw [if_neg (fun he => hkp he.symm), if_pos rfl]
        exact ⟨by omega, by omega⟩
      | none =>
        rw [hl] at hk
        simp only [hl]
        rw [hout, hin]
        rw [if_neg (fun he => hkp he.symm), if_pos rfl]
        exact ⟨by omega, by omega⟩
  · rw [bumpIdeg, alLookup_upsert_ne _ s k _ _ hks]
    by_cases hkp : k = p
    · subst hkp
      rw [bumpOdeg, alLookup_upsert_self]
      have hk := h k
      cases hl : alLookup nodes k with
      | some n =>
        rw [hl] at hk
        simp only [hl]
        rw [hout, hin]
        rw [if_pos rfl, if_neg (fun he => hks he.symm)]
        exact ⟨by omega, by omega⟩
      | none =>
        rw [hl] at hk
        simp only [hl]
        rw [hout, hin]
        rw [if_pos rfl, if_neg (fun he => hks he.symm)]
        exact ⟨by omega, by omega⟩
    · rw [bumpOdeg, alLookup_upsert_ne nodes p k _ _ hkp]
      have hk := h k
      cases hl : alLookup nodes k with
      | some n =>
        rw [hl] at hk
        simp only [hl]
        rw [hout, hin]
        rw [if_neg (fun he => hkp he.symm), if_neg (fun he => hks he.symm)]
        exact ⟨by omega, by omega⟩
      | none =>
        rw [hl] at hk
        simp only [hl]
        rw [hout, hin]
        rw [if_neg (fun he => hkp he.symm), if_neg (fun he => hks he.symm)]
        exact ⟨by omega, by omega⟩

theorem idx_consistent_upsert (nodes : List (Nat × Node)) (k : Nat)
    (f : Node → Node) (d : Node) (hf : ∀ v : Node, (f v).idx = v.idx)
    (hd : d.idx = k) (h : ∀ q ∈ nodes, q.2.idx = q.1) :
    ∀ q ∈ alUpsert nodes k f d, q.2.idx = q.1 := by
  intro q hq
  rcases mem_upsert nodes k f d q hq with hq | ⟨v, hv1, hv2⟩ | ⟨_, hv2⟩
  · exact h q hq
  · subst hv2
    show (f v).idx = k
    rw [hf v]
    exact h (k, v) (alLookup_mem nodes k v hv1)
  · subst hv2
    exact hd

/-- Structural well-formedness survives the addition of one read's edge. -/
theorem gwf_addRead (g : Graph) (nodes : List (Nat × Node)) (p s : Nat)
    (h : gwf g nodes) :
    gwf (pushEdgeG g p s) (bumpIdeg (bumpOdeg nodes p) s) := by
  obtain ⟨h1, h2, h3, h4, h5⟩ := h
  have hkeys : ∀ k0, k0 ∈ keysOf nodes →
      k0 ∈ keysOf (bumpIdeg (bumpOdeg nodes p) s) :=
    fun k0 hk0 =>
      mem_keys_upsert_of_mem _ s k0 _ _ (mem_keys_upsert_of_mem _ p k0 _ _ hk0)
  have hp_mem : p ∈ keysOf (bumpIdeg (bumpOdeg nodes p) s) :=
    mem_keys_upsert_of_mem _ s p _ _ (mem_keys_upsert_self nodes p _ _)
  have hs_mem : s ∈ keysOf (bumpIdeg (bumpOdeg nodes p) s) :=
    mem_keys_upsert_self _ s _ _
  refine ⟨?_, ?_, ?_, ?_, ?_⟩
  · exact nodup_keys_upsert _ s _ _ (nodup_keys_upsert _ p _ _ h1)
  · intro q hq
    rcases mem_upsert g p _ _ q hq with hq | ⟨v, hv1, hv2⟩ | ⟨_, hq2⟩
    · exact h2 q hq
    · subst hv2
      exact nodup_keys_upsert v s _ _ (h2 (p, v) (alLookup_mem g p v hv1))
    · subst hq2
      simp [keysOf]
  · intro q hq q' hq'
    rcases mem_upsert g p _ _ q hq with hq | ⟨v, hv1, hv2⟩ | ⟨_, hq2⟩
    · exact h3 q hq q' hq'
    · subst hv2
      have hvmem : (p, v) ∈ g := alLookup_mem g p v hv1
      rcases mem_upsert v s _ _ q' hq' with hq' | ⟨b, hb1, hb2⟩ | ⟨_, hb2⟩
      · exact h3 (p, v) hvmem q' hq'
      · subst hb2
        have hbmem : (s, b) ∈ v := alLookup_mem v s b hb1
        refine ⟨by simp, ?_⟩
        intro e he
        rcases List.mem_append.mp he with he | he
        · exact (h3 (p, v) hvmem (s, b) hbmem).2 e he
        · rw [List.mem_singleton.mp he]
          exact ⟨rfl, rfl⟩
      · subst hb2
        refine ⟨by simp, ?_⟩
        intro e he
        rw [List.mem_singleton.mp he]
        exact ⟨rfl, rfl⟩
    · subst hq2
      rw [List.mem_singleton.mp hq']
      refine ⟨by simp, ?_⟩
      intro e he
      rw [List.mem_singleton.mp he]
      exact ⟨rfl, rfl⟩
  · intro q hq
    rcases mem_upsert g p _ _ q hq with hq | ⟨v, hv1, hv2⟩ | ⟨_, hq2⟩
    · obtain ⟨ha, hb⟩ := h4 q hq
      exact ⟨hkeys _ ha, fun q' hq' => hkeys _ (hb q' hq')⟩
    · subst hv2
      have hvmem : (p, v) ∈ g := alLookup_mem g p v hv1
      refine ⟨hp_mem, ?_⟩
      intro q' hq'
      rcases mem_upsert v s _ _ q' hq' with hq' | ⟨b, hb1, hb2⟩ | ⟨_, hb2⟩
      · exact hkeys _ ((h4 (p, v) hvmem).2 q' hq')
      · subst hb2; exact hs_mem
      · subst hb2; exact hs_mem
    · subst hq2
      refine ⟨hp_mem, ?_⟩
      intro q' hq'
      rw [List.mem_singleton.mp hq']
      exact hs_mem
  · exact idx_consistent_upsert _ s _ _ (fun v => rfl) rfl
      (idx_consistent_upsert nodes p _ _ (fun v => rfl) rfl h5)

/-- The construction fold keeps the degree invariant and structural
well-formedness. -/
theorem new_fold_inv (reads : List (List Nat)) :
    ∀ (gn0 : Graph × List (Nat × Node)),
      dinvL gn0.1 gn0.2 → gwf gn0.1 gn0.2 →
      ∀ gn, (reads.foldlM (fun (gn : Graph × List (Nat × Node)) read =>
        match vec2idx read NodeType.Pfx, vec2idx read NodeType.Sfx with
        | some pidx, some sidx => some (addRead gn pidx sidx)
        | _, _ => none) gn0) = some gn →
      dinvL gn.1 gn.2 ∧ gwf gn.1 gn.2 := by
  induction reads with
  | nil =>
    intro gn0 hd hw gn hg
    simp only [List.foldlM_nil] at hg
    obtain rfl := Option.some.injEq .. ▸ hg
    exact ⟨hd, hw⟩
  | cons r rs ih =>
    intro gn0 hd hw gn hg
    rw [List.foldlM_cons] at hg
    cases hp : vec2idx r NodeType.Pfx with
    | none => rw [hp] at hg; simp at hg
    | some pidx =>
      cases hs : vec2idx r NodeType.Sfx with
      | none => rw [hp, hs] at hg; simp at hg
      | some sidx =>
        rw [hp, hs] at hg
        simp only [Option.some_bind] at hg
        exact ih (addRead gn0 pidx sidx)
          (dinvL_addRead gn0.1 gn0.2 pidx sidx hd)
          (gwf_addRead gn0.1 gn0.2 pidx sidx hw)
          gn hg

theorem new_dinvL_gwf (reads : List (List Nat)) (st : Assembler)
    (h : Assembler.new reads = some st) :
    dinvL st.graph st.nodes ∧ gwf st.graph st.nodes := by
  rw [Assembler.new] at h
  cases hg : reads.foldlM (fun (gn : Graph × List (Nat × Node)) read =>
      match vec2idx read NodeType.Pfx, vec2idx read NodeType.Sfx with
      | some pidx, some sidx => some (addRead gn pidx sidx)
      | _, _ => none) (([], []) : Graph × List (Nat × Node)) with
  | none => rw [hg] at h; simp at h
  | some gn =>
    rw [hg] at h
    simp only [Option.map_some'] at h
    have hbase1 : dinvL ([] : Graph) ([] : List (Nat × Node)) := by
      intro k; simp [alLookup, outUnused, inUnused]
    have hbase2 : gwf ([] : Graph) ([] : List (Nat × Node)) := by
      refine ⟨by simp [keysOf], ?_, ?_, ?_, ?_⟩ <;> intro q hq <;> simp at hq
    obtain ⟨hd, hw⟩ := new_fold_inv reads ([], []) hbase1 hbase2 gn hg
    obtain rfl := (Option.some.injEq .. ▸ h).symm
    exact ⟨hd, hw⟩

/-! #### Edge consumption (`Edge::mark_used`) -/

/-- `odeg -= 1` through the edge's source handle; `none` models the
`usize` underflow abort (the node cell itself always exists for a live
handle). -/
def decOdeg (nodes : List (Nat × Node)) (k : Nat) : Option (List (Nat × Node)) :=
  match alLookup nodes k with
  | none => none
  | some n =>
    if n.odeg = 0 then none
    else some (alSet nodes k { n with odeg := n.odeg - 1 })

/-- `ideg -= 1` through the edge's destination handle. -/
def decIdeg (nodes : List (Nat × Node)) (k : Nat) : Option (List (Nat × Node)) :=
  match alLookup nodes k with
  | none => none
  | some n =>
    if n.ideg = 0 then none
    else some (alSet nodes k { n with ideg := n.ideg - 1 })

/-- `self.used = true` on the edge at position `pos` of a bucket. -/
def markBucket (b : Bucket) (pos : Nat) : Bucket :=
  match b[pos]? with
  | none => b
  | some e => b.set pos { e with used := true }

/-- The edge stored at position `pos` of the bucket keyed `(p, s)`. -/
def edgeAt (g : Graph) (p s pos : Nat) : Option Edge :=
  match alLookup g p with
  | none => none
  | some sufs =>
    match alLookup sufs s with
    | none => none
    | some b => b[pos]?

/-- The graph after the flag of the edge at `(p, s, pos)` is set. -/
def markG (g : Graph) (p s pos : Nat) (sufs : Sufs) (b : Bucket) : Graph :=
  alUpsert g p (fun sufs0 => alUpsert sufs0 s (fun b0 => markBucket b0 pos) b) sufs

/-- `Edge::mark_used` on the edge at `(p, s, pos)` — decrement the two
endpoint degree counters through the edge's own node handles, then set the
flag.  `none` models the `usize` underflow abort. -/
def mark_used (st : Assembler) (p s pos : Nat) : Option Assembler :=
  match alLookup st.graph p with
  | none => none
  | some sufs =>
    match alLookup sufs s with
    | none => none
    | some b =>
      match b[pos]? with
      | none => none
      | some e =>
        match decOdeg st.nodes e.pfx with
        | none => none
        | some nodes1 =>
          match decIdeg nodes1 e.sfx with
          | none => none
          | some nodes2 =>
            some { st with graph := markG st.graph p s pos sufs b, nodes := nodes2 }

theorem bucketUnused_mark :
    ∀ (b : Bucket) (pos : Nat) (e : Edge), b[pos]? = some e → e.used = false →
      bucketUnused (markBucket b pos) + 1 = bucketUnused b := by
  intro b
  induction b with
  | nil => intro pos e h _; simp at h
  | cons e0 t ih =>
    intro pos e h hu
    cases pos with
    | zero =>
      simp only [List.getElem?_cons_zero] at h
      obtain rfl := Option.some.injEq .. ▸ h
      simp only [markBucket, List.getElem?_cons_zero, List.set_cons_zero]
      simp [bucketUnused, hu]
    | succ pos =>
      simp only [List.getElem?_cons_succ] at h
      have hrec := ih pos e h hu
      simp only [markBucket, List.getElem?_cons_succ, h, List.set_cons_succ]
        at hrec ⊢
      simp only [bucketUnused, List.filter_cons] at hrec ⊢
      cases he0 : e0.used <;> simp <;> omega

theorem sufsUnused_mark :
    ∀ (sufs : Sufs) (s pos : Nat) (b : Bucket) (e : Edge),
      alLookup sufs s = some b → b[pos]? = some e → e.used = false →
      sufsUnused (alUpsert sufs s (fun b0 => markBucket b0 pos) b) + 1
        = sufsUnused sufs := by
  intro sufs
  induction sufs with
  | nil => intro s pos b e h _ _; simp [alLookup] at h
  | cons q t ih =>
    intro s pos b e h he hu
    obtain ⟨s', b'⟩ := q
    by_cases hs : s' = s
    · subst hs
      rw [alLookup, if_pos rfl] at h
      obtain rfl := Option.some.injEq .. ▸ h
      simp only [alUpsert, if_pos rfl, if_true]
      rw [sufsUnused_cons, sufsUnused_cons]
      have := bucketUnused_mark b' pos e he hu
      omega
    · rw [alLookup, if_neg hs] at h
      simp only [alUpsert, if_neg hs]
      rw [sufsUnused_cons, sufsUnused_cons]
      have := ih s pos b e h he hu
      omega

theorem inUnusedSufs_mark :
    ∀ (sufs : Sufs) (s pos k : Nat) (b : Bucket) (e : Edge),
      alLookup sufs s = some b → b[pos]? = some e → e.used = false →
      inUnusedSufs (alUpsert sufs s (fun b0 => markBucket b0 pos) b) k
          + (if s = k then 1 else 0)
        = inUnusedSufs sufs k := by
  intro sufs
  induction sufs with
  | nil => intro s pos k b e h _ _; simp [alLookup] at h
  | cons q t ih =>
    intro s pos k b e h he hu
    obtain ⟨s', b'⟩ := q
    by_cases hs : s' = s
    · subst hs
      rw [alLookup, if_pos rfl] at h
      obtain rfl := Option.some.injEq .. ▸ h
      simp only [alUpsert, if_pos rfl, if_true]
      rw [inUnusedSufs_cons, inUnusedSufs_cons]
      have := bucketUnused_mark b' pos e he hu
      by_cases hk : s' = k
      · subst hk; simp only [if_pos rfl, if_true]; omega
      · simp only [if_neg hk]; omega
    · rw [alLookup, if_neg hs] at h
      simp only [alUpsert, if_neg hs]
      rw [inUnusedSufs_cons, inUnusedSufs_cons]
      have := ih s pos k b e h he hu
      omega

theorem outUnused_mark :
    ∀ (g : Graph) (p s pos k : Nat) (sufs : Sufs) (b : Bucket) (e : Edge),
      alLookup g p = some sufs → alLookup sufs s = some b →
      b[pos]? = some e → e.used = false →
      outUnused (markG g p s pos sufs b) k + (if p = k then 1 else 0)
        = outUnused g k := by
  intro g
  induction g with
  | nil => intro p s pos k sufs b e h _ _ _; simp [alLookup] at h
  | cons q t ih =>
    intro p s pos k sufs b e h hb he hu
    obtain ⟨p', v⟩ := q
    by_cases hp : p' = p
    · subst hp
      rw [alLookup, if_pos rfl] at h
      obtain rfl := Option.some.injEq .. ▸ h
      simp only [markG, alUpsert, if_pos rfl, if_true]
      rw [outUnused_cons, outUnused_cons]
      have := sufsUnused_mark v s pos b e hb he hu
      by_cases hk : p' = k
      · subst hk; simp only [if_pos rfl, if_true]; omega
      · simp only [if_neg hk]; omega
    · rw [alLookup, if_neg hp] at h
      simp only [markG, alUpsert, if_neg hp]
      rw [outUnused_cons, outUnused_cons]
      have hrec := ih p s pos k sufs b e h hb he hu
      simp only [markG] at hrec
      omega

theorem inUnused_mark :
    ∀ (g : Graph) (p s pos k : Nat) (sufs : Sufs) (b : Bucket) (e : Edge),
      alLookup g p = some sufs → alLookup sufs s = some b →
      b[pos]? = some e → e.used = false →
      inUnused (markG g p s pos sufs b) k + (if s = k then 1 else 0)
        = inUnused g k := by
  intro g
  induction g with
  | nil => intro p s pos k sufs b e h _ _ _; simp [alLookup] at h
  | cons q t ih =>
    intro p s pos k sufs b e h hb he hu
    obtain ⟨p', v⟩ := q
    by_cases hp : p' = p
    · subst hp
      rw [alLookup, if_pos rfl] at h
      obtain rfl := Option.some.injEq .. ▸ h
      simp only [markG, alUpsert, if_pos rfl, if_true]
      rw [inUnused_cons, inUnused_cons]
      have := inUnusedSufs_mark v s pos k b e hb he hu
      omega
    · rw [alLookup, if_neg hp] at h
      simp only [markG, alUpsert, if_neg hp]
      rw [inUnused_cons, inUnused_cons]
      have hrec := ih p s pos k sufs b e h hb he hu
      simp only [markG] at hrec
      omega

theorem unusedTotal_mark :
    ∀ (g : Graph) (p s pos : Nat) (sufs : Sufs) (b : Bucket) (e : Edge),
      alLookup g p = some sufs → alLookup sufs s = some b →
      b[pos]? = some e → e.used = false →
      unusedTotal (markG g p s pos sufs b) + 1 = unusedTotal g := by
  intro g
  induction g with
  | nil => intro p s pos sufs b e h _ _ _; simp [alLookup] at h
  | cons q t ih =>
    intro p s pos sufs b e h hb he hu
    obtain ⟨p', v⟩ := q
    by_cases hp : p' = p
    · subst hp
      rw [alLookup, if_pos rfl] at h
      obtain rfl := Option.some.injEq .. ▸ h
      simp only [markG, alUpsert, if_pos rfl, if_true]
      rw [unusedTotal_cons, unusedTotal_cons]
      have := sufsUnused_mark v s pos b e hb he hu
      omega
    · rw [alLookup, if_neg hp] at h
      simp only [markG, alUpsert, if_neg hp]
      rw [unusedTotal_cons, unusedTotal_cons]
      have hrec := ih p s pos sufs b e h hb he hu
      simp only [markG] at hrec
      omega

/-! #### Monotonicity of the consumed flags -/

/-- Same edge, flag possibly raised. -/
def edgeLe (e e' : Edge) : Bool :=
  decide (e.pfx = e'.pfx) && decide (e.sfx = e'.sfx) && (!e.used || e'.used)

def bucketLe : Bucket → Bucket → Bool
  | [], [] => true
  | e :: t, e' :: t' => edgeLe e e' && bucketLe t t'
  | _, _ => false

def sufsLe : Sufs → Sufs → Bool
  | [], [] => true
  | (k, b) :: t, (k', b') :: t' => decide (k = k') && bucketLe b b' && sufsLe t t'
  | _, _ => false

/-- Same graph shape, with consumed flags only ever raised. -/
def graphLe : Graph → Graph → Bool
  | [], [] => true
  | (k, v) :: t, (k', v') :: t' => decide (k = k') && sufsLe v v' && graphLe t t'
  | _, _ => false

theorem edgeLe_refl (e : Edge) : edgeLe e e = true := by
  cases e with
  | mk p s u => cases u <;> simp [edgeLe]

theorem bucketLe_refl : ∀ (b : Bucket), bucketLe b b = true := by
  intro b
  induction b with
  | nil => rfl
  | cons e t ih => simp [bucketLe, edgeLe_refl, ih]

theorem sufsLe_refl : ∀ (v : Sufs), sufsLe v v = true := by
  intro v
  induction v with
  | nil => rfl
  | cons q t ih =>
    obtain ⟨k, b⟩ := q
    simp [sufsLe, bucketLe_refl, ih]

theorem graphLe_refl : ∀ (g : Graph), graphLe g g = true := by
  intro g
  induction g with
  | nil => rfl
  | cons q t ih =>
    obtain ⟨k, v⟩ := q
    simp [graphLe, sufsLe_refl, ih]

theorem edgeLe_trans {a b c : Edge} (h1 : edgeLe a b = true)
    (h2 : edgeLe b c = true) : edgeLe a c = true := by
  simp only [edgeLe, Bool.and_eq_true, decide_eq_true_eq, Bool.or_eq_true] at *
  obtain ⟨⟨hp1, hs1⟩, hu1⟩ := h1
  obtain ⟨⟨hp2, hs2⟩, hu2⟩ := h2
  refine ⟨⟨hp1.trans hp2, hs1.trans hs2⟩, ?_⟩
  rcases hu1 with hu1 | hu1
  · exact Or.inl hu1
  · rcases hu2 with hu2 | hu2
    · rw [hu1] at hu2; simp at hu2
    · exact Or.inr hu2

theorem bucketLe_trans : ∀ {a b c : Bucket}, bucketLe a b = true →
    bucketLe b c = true → bucketLe a c = true := by
  intro a
  induction a with
  | nil =>
    intro b c h1 h2
    cases b with
    | nil => cases c with
      | nil => rfl
      | cons _ _ => simp [bucketLe] at h2
    | cons _ _ => simp [bucketLe] at h1
  | cons e t ih =>
    intro b c h1 h2
    cases b with
    | nil => simp [bucketLe] at h1
    | cons e' t' =>
      cases c with
      | nil => simp [bucketLe] at h2
      | cons e'' t'' =>
        simp only [bucketLe, Bool.and_eq_true] at h1 h2 ⊢
        exact ⟨edgeLe_trans h1.1 h2.1, ih h1.2 h2.2⟩

theorem sufsLe_trans : ∀ {a b c : Sufs}, sufsLe a b = true →
    sufsLe b c = true → sufsLe a c = true := by
  intro a
  induction a with
  | nil =>
    intro b c h1 h2
    cases b with
    | nil => cases c with
      | nil => rfl
      | cons _ _ => simp [sufsLe] at h2
    | cons _ _ => simp [sufsLe] at h1
  | cons q t ih =>
    intro b c h1 h2
    obtain ⟨k, v⟩ := q
    cases b with
    | nil => simp [sufsLe] at h1
    | cons q' t' =>
      obtain ⟨k', v'⟩ := q'
      cases c with
      | nil => simp [sufsLe] at h2
      | cons q'' t'' =>
        obtain ⟨k'', v''⟩ := q''
        simp only [sufsLe, Bool.and_eq_true, decide_eq_true_eq] at h1 h2 ⊢
        exact ⟨⟨h1.1.1.trans h2.1.1, bucketLe_trans h1.1.2 h2.1.2⟩,
          ih h1.2 h2.2⟩

theorem graphLe_trans : ∀ {a b c : Graph}, graphLe a b = true →
    graphLe b c = true → graphLe a c = true := by
  intro a
  induction a with
  | nil =>
    intro b c h1 h2
    cases b with
    | nil => cases c with
      | nil => rfl
      | cons _ _ => simp [graphLe] at h2
    | cons _ _ => simp [graphLe] at h1
  | cons q t ih =>
    intro b c h1 h2
    obtain ⟨k, v⟩ := q
    cases b with
    | nil => simp [graphLe] at h1
    | cons q' t' =>
      obtain ⟨k', v'⟩ := q'
      cases c with
      | nil => simp [graphLe] at h2
      | cons q'' t'' =>
        obtain ⟨k'', v''⟩ := q''
        simp only [graphLe, Bool.and_eq_true, decide_eq_true_eq] at h1 h2 ⊢
        exact ⟨⟨h1.1.1.trans h2.1.1, sufsLe_trans h1.1.2 h2.1.2⟩,
          ih h1.2 h2.2⟩

theorem bucketLe_markBucket : ∀ (b : Bucket) (pos : Nat),
    bucketLe b (markBucket b pos) = true := by
  intro b
  induction b with
  | nil => intro pos; rfl
  | cons e t ih =>
    intro pos
    cases pos with
    | zero =>
      simp only [markBucket, List.getElem?_cons_zero, List.set_cons_zero]
      simp only [bucketLe, Bool.and_eq_true]
      refine ⟨?_, bucketLe_refl t⟩
      cases he : e.used <;> simp [edgeLe]
    | succ pos =>
      have hrec := ih pos
      simp only [markBucket, List.getElem?_cons_succ]
      cases ht : t[pos]? with
      | none => simpa using bucketLe_refl (e :: t)
      | some e2 =>
        simp only [List.set_cons_succ, bucketLe, Bool.and_eq_true]
        refine ⟨edgeLe_refl e, ?_⟩
        simp only [markBucket, ht] at hrec
        exact hrec

theorem sufsLe_upsert_mark : ∀ (v : Sufs) (s pos : Nat) (b : Bucket),
    alLookup v s = some b →
    sufsLe v (alUpsert v s (fun b0 => markBucket b0 pos) b) = true := by
  intro v
  induction v with
  | nil => intro s pos b h; simp [alLookup] at h
  | cons q t ih =>
    intro s pos b h
    obtain ⟨s', b'⟩ := q
    by_cases hs : s' = s
    · subst hs
      rw [alLookup, if_pos rfl] at h
      simp only [alUpsert, if_pos rfl, if_true]
      simp only [sufsLe, Bool.and_eq_true, decide_eq_true_eq]
      exact ⟨⟨trivial, bucketLe_markBucket b' pos⟩, sufsLe_refl t⟩
    · rw [alLookup, if_neg hs] at h
      simp only [alUpsert, if_neg hs]
      simp only [sufsLe, Bool.and_eq_true, decide_eq_true_eq]
      exact ⟨⟨trivial, bucketLe_refl b'⟩, ih s pos b h⟩

theorem graphLe_markG : ∀ (g : Graph) (p s pos : Nat) (sufs : Sufs) (b : Bucket),
    alLookup g p = some sufs → alLookup sufs s = some b →
    graphLe g (markG g p s pos sufs b) = true := by
  intro g
  induction g with
  | nil => intro p s pos sufs b h _; simp [alLookup] at h
  | cons q t ih =>
    intro p s pos sufs b h hb
    obtain ⟨p', v⟩ := q
    by_cases hp : p' = p
    · subst hp
      rw [alLookup, if_pos rfl] at h
      obtain rfl := Option.some.injEq .. ▸ h
      simp only [markG, alUpsert, if_pos rfl, if_true]
      simp only [graphLe, Bool.and_eq_true, decide_eq_true_eq]
      exact ⟨⟨trivial, sufsLe_upsert_mark v s pos b hb⟩, graphLe_refl t⟩
    · rw [alLookup, if_neg hp] at h
      simp only [markG, alUpsert, if_neg hp]
      simp only [graphLe, Bool.and_eq_true, decide_eq_true_eq]
      have hrec := ih p s pos sufs b h hb
      simp only [markG] at hrec
      exact ⟨⟨trivial, sufsLe_refl v⟩, hrec⟩

/-! #### Positivity of the degree counts at a live unconsumed edge -/

theorem bucketUnused_pos (b : Bucket) (pos : Nat) (e : Edge)
    (he : b[pos]? = some e) (hu : e.used = false) : 1 ≤ bucketUnused b := by
  have hmem : e ∈ b := List.getElem?_mem he
  have hf : e ∈ b.filter (fun e => !e.used) :=
    List.mem_filter.mpr ⟨hmem, by simp [hu]⟩
  have := List.length_pos.mpr (List.ne_nil_of_mem hf)
  simpa [bucketUnused] using this

theorem sufsUnused_pos : ∀ (sufs : Sufs) (s : Nat) (b : Bucket),
    alLookup sufs s = some b → bucketUnused b ≤ sufsUnused sufs := by
  intro sufs
  induction sufs with
  | nil => intro s b h; simp [alLookup] at h
  | cons q t ih =>
    intro s b h
    obtain ⟨s', b'⟩ := q
    by_cases hs : s' = s
    · subst hs
      rw [alLookup, if_pos rfl] at h
      obtain rfl := Option.some.injEq .. ▸ h
      rw [sufsUnused_cons]
      omega
    · rw [alLookup, if_neg hs] at h
      rw [sufsUnused_cons]
      have := ih s b h
      omega

theorem outUnused_pos : ∀ (g : Graph) (p : Nat) (sufs : Sufs),
    alLookup g p = some sufs → sufsUnused sufs ≤ outUnused g p := by
  intro g
  induction g with
  | nil => intro p sufs h; simp [alLookup] at h
  | cons q t ih =>
    intro p sufs h
    obtain ⟨p', v⟩ := q
    by_cases hp : p' = p
    · subst hp
      rw [alLookup, if_pos rfl] at h
      obtain rfl := Option.some.injEq .. ▸ h
      rw [outUnused_cons, if_pos rfl]
      omega
    · rw [alLookup, if_neg hp] at h
      rw [outUnused_cons]
      have := ih p sufs h
      omega

theorem inUnusedSufs_pos : ∀ (sufs : Sufs) (s : Nat) (b : Bucket),
    alLookup sufs s = some b → bucketUnused b ≤ inUnusedSufs sufs s := by
  intro sufs
  induction sufs with
  | nil => intro s b h; simp [alLookup] at h
  | cons q t ih =>
    intro s b h
    obtain ⟨s', b'⟩ := q
    by_cases hs : s' = s
    · subst hs
      rw [alLookup, if_pos rfl] at h
      obtain rfl := Option.some.injEq .. ▸ h
      rw [inUnusedSufs_cons, if_pos rfl]
      omega
    · rw [alLookup, if_neg hs] at h
      rw [inUnusedSufs_cons]
      have := ih s b h
      omega

theorem inUnused_pos : ∀ (g : Graph) (p s : Nat) (sufs : Sufs),
    alLookup g p = some sufs → inUnusedSufs sufs s ≤ inUnused g s := by
  intro g
  induction g with
  | nil => intro p s sufs h; simp [alLookup] at h
  | cons q t ih =>
    intro p s sufs h
    obtain ⟨p', v⟩ := q
    by_cases hp : p' = p
    · subst hp
      rw [alLookup, if_pos rfl] at h
      obtain rfl := Option.some.injEq .. ▸ h
      rw [inUnused_cons]
      omega
    · rw [alLookup, if_neg hp] at h
      rw [inUnused_cons]
      have := ih p s sufs h
      omega

theorem mem_keys_of_lookup {α : Type} (l : List (Nat × α)) (k : Nat) (v : α)
    (h : alLookup l k = some v) : k ∈ keysOf l := by
  by_contra hc
  rw [(alLookup_eq_none_iff l k).mpr hc] at h
  cases h

theorem length_markBucket (b : Bucket) (pos : Nat) :
    (markBucket b pos).length = b.length := by
  rw [markBucket]
  cases h : b[pos]? with
  | none => rfl
  | some e => simp

/-- Structural well-formedness of the post-mark state. -/
theorem gwf_mark (g : Graph) (nodes nodes2 : List (Nat × Node))
    (p s pos : Nat) (sufs : Sufs) (b : Bucket)
    (hwf : gwf g nodes)
    (hg : alLookup g p = some sufs) (hb : alLookup sufs s = some b)
    (hkeys : keysOf nodes2 = keysOf nodes)
    (hidx : ∀ q ∈ nodes2, q.2.idx = q.1) :
    gwf (markG g p s pos sufs b) nodes2 := by
  obtain ⟨h1, h2, h3, h4, _⟩ := hwf
  have hpmem : (p, sufs) ∈ g := alLookup_mem g p sufs hg
  have hsmem : (s, b) ∈ sufs := alLookup_mem sufs s b hb
  have hskeys : s ∈ keysOf sufs := mem_keys_of_lookup sufs s b hb
  refine ⟨by rw [hkeys]; exact h1, ?_, ?_, ?_, hidx⟩
  · intro q hq
    rcases mem_upsert g p _ _ q hq with hq | ⟨v, hv1, hv2⟩ | ⟨hn, _⟩
    · exact h2 q hq
    · rw [hg] at hv1
      obtain rfl := (Option.some.injEq .. ▸ hv1)
      subst hv2
      show (keysOf (alUpsert sufs s _ _)).Nodup
      rw [keysOf_upsert, if_pos hskeys]
      exact h2 (p, sufs) hpmem
    · rw [hg] at hn; cases hn
  · intro q hq q' hq'
    rcases mem_upsert g p _ _ q hq with hq | ⟨v, hv1, hv2⟩ | ⟨hn, _⟩
    · exact h3 q hq q' hq'
    · rw [hg] at hv1
      obtain rfl := (Option.some.injEq .. ▸ hv1)
      subst hv2
      rcases mem_upsert sufs s _ _ q' hq' with hq' | ⟨b0, hb1, hb2⟩ | ⟨hn, _⟩
      · exact h3 (p, sufs) hpmem q' hq'
      · rw [hb] at hb1
        obtain rfl := (Option.some.injEq .. ▸ hb1)
        subst hb2
        have hne : b ≠ [] := (h3 (p, sufs) hpmem (s, b) hsmem).1
        constructor
        · intro hnil
          have hlen0 := length_markBucket b pos
          rw [(show markBucket b pos = [] from hnil)] at hlen0
          have hblen : b.length = 0 := by simpa using hlen0.symm
          exact hne (List.eq_nil_of_length_eq_zero hblen)
        · intro e' he'
          rw [markBucket] at he'
          cases hpos : b[pos]? with
          | none =>
            rw [hpos] at he'
            exact (h3 (p, sufs) hpmem (s, b) hsmem).2 e' he'
          | some e2 =>
            rw [hpos] at he'
            rcases List.mem_or_eq_of_mem_set he' with he' | he'
            · exact (h3 (p, sufs) hpmem (s, b) hsmem).2 e' he'
            · subst he'
              have := (h3 (p, sufs) hpmem (s, b) hsmem).2 e2
                (List.getElem?_mem hpos)
              exact ⟨this.1, this.2⟩
      · rw [hb] at hn; cases hn
    · rw [hg] at hn; cases hn
  · intro q hq
    rcases mem_upsert g p _ _ q hq with hq | ⟨v, hv1, hv2⟩ | ⟨hn, _⟩
    · obtain ⟨ha, hc⟩ := h4 q hq
      rw [hkeys]
      exact ⟨ha, hc⟩
    · rw [hg] at hv1
      obtain rfl := (Option.some.injEq .. ▸ hv1)
      subst hv2
      rw [hkeys]
      refine ⟨(h4 (p, sufs) hpmem).1, ?_⟩
      intro q' hq'
      rcases mem_upsert sufs s _ _ q' hq' with hq' | ⟨b0, hb1, hb2⟩ | ⟨hn, _⟩
      · exact (h4 (p, sufs) hpmem).2 q' hq'
      · subst hb2
        exact (h4 (p, sufs) hpmem).2 (s, b) hsmem
      · rw [hb] at hn; cases hn
    · rw [hg] at hn; cases hn

theorem idx_consistent_set (nodes : List (Nat × Node)) (k : Nat) (n : Node)
    (hn : n.idx = k) (h : ∀ q ∈ nodes, q.2.idx = q.1) :
    ∀ q ∈ alSet nodes k n, q.2.idx = q.1 := by
  intro q hq
  rcases mem_set nodes k n q hq with hq | hq
  · exact h q hq
  · subst hq; exact hn

/-- `mark_used` on a present unconsumed edge succeeds (no `unwrap` abort,
no degree underflow) and keeps the invariants, consuming exactly one
edge. -/
theorem mark_used_total (st : Assembler) (p s pos : Nat)
    (sufs : Sufs) (b : Bucket) (e : Edge)
    (hwf : gwf st.graph st.nodes) (hd : dinvL st.graph st.nodes)
    (hg : alLookup st.graph p = some sufs) (hb : alLookup sufs s = some b)
    (he : b[pos]? = some e) (hu : e.used = false) :
    ∃ st', mark_used st p s pos = some st' ∧
      st'.graph = markG st.graph p s pos sufs b ∧
      dinvL st'.graph st'.nodes ∧ gwf st'.graph st'.nodes ∧
      unusedTotal st'.graph + 1 = unusedTotal st.graph ∧
      keysOf st'.nodes = keysOf st.nodes ∧
      graphLe st.graph st'.graph = true ∧
      st'.paths = st.paths ∧ st'.cycles = st.cycles ∧ st'.contigs = st.contigs := by
  obtain ⟨hw1, hw2, hw3, hw4, hw5⟩ := hwf
  have hpmem : (p, sufs) ∈ st.graph := alLookup_mem _ p sufs hg
  have hsmem : (s, b) ∈ sufs := alLookup_mem sufs s b hb
  have hfields := (hw3 (p, sufs) hpmem (s, b) hsmem).2 e (List.getElem?_mem he)
  have hepfx : e.pfx = p := hfields.1
  have hesfx : e.sfx = s := hfields.2
  -- the two endpoint node cells exist
  obtain ⟨n1, hn1⟩ := alLookup_isSome_of_mem_keys st.nodes p (hw4 (p, sufs) hpmem).1
  -- the degree counters are positive
  have hodeg_pos : 1 ≤ outUnused st.graph p :=
    le_trans (le_trans (bucketUnused_pos b pos e he hu) (sufsUnused_pos sufs s b hb))
      (outUnused_pos st.graph p sufs hg)
  have hideg_pos : 1 ≤ inUnused st.graph s :=
    le_trans (le_trans (bucketUnused_pos b pos e he hu) (inUnusedSufs_pos sufs s b hb))
      (inUnused_pos st.graph p s sufs hg)
  have hn1d := hd p
  rw [hn1] at hn1d
  have hodeg1 : n1.odeg = outUnused st.graph p := hn1d.1
  -- decOdeg succeeds
  set n1' : Node := { n1 with odeg := n1.odeg - 1 } with hn1def
  have hdec1 : decOdeg st.nodes e.pfx = some (alSet st.nodes p n1') := by
    rw [hepfx]
    simp only [decOdeg, hn1]
    rw [if_neg (show ¬ n1.odeg = 0 by omega)]
  set nodes1 := alSet st.nodes p n1' with hnodes1
  -- decIdeg succeeds
  have hlook1 : ∀ k, k ≠ p → alLookup nodes1 k = alLookup st.nodes k :=
    fun k hk => alLookup_set_ne st.nodes p k n1' hk
  have hdec2 : ∃ n2 n2', alLookup nodes1 s = some n2 ∧
      n2' = { n2 with ideg := n2.ideg - 1 } ∧
      n2.ideg = inUnused st.graph s ∧
      decIdeg nodes1 e.sfx = some (alSet nodes1 s n2') := by
    by_cases hps : s = p
    · subst hps
      have hl : alLookup nodes1 s = some n1' := alLookup_set_self st.nodes s n1' n1 hn1
      refine ⟨n1', _, hl, rfl, ?_, ?_⟩
      · show n1'.ideg = inUnused st.graph s
        rw [hn1def]
        exact hn1d.2
      · rw [hesfx]
        simp only [decIdeg, hl]
        rw [if_neg (show ¬ n1'.ideg = 0 by
          show ¬ n1.ideg = 0
          rw [hn1d.2]
          omega)]
    · obtain ⟨n2, hn2⟩ := alLookup_isSome_of_mem_keys st.nodes s
        ((hw4 (p, sufs) hpmem).2 (s, b) hsmem)
      have hl : alLookup nodes1 s = some n2 := by
        rw [hlook1 s hps]; exact hn2
      have hn2d := hd s
      rw [hn2] at hn2d
      refine ⟨n2, _, hl, rfl, hn2d.2, ?_⟩
      rw [hesfx]
      simp only [decIdeg, hl]
      rw [if_neg (show ¬ n2.ideg = 0 by rw [hn2d.2]; omega)]
  obtain ⟨n2, n2', hln2, hn2pdef, hn2ideg, hdec2⟩ := hdec2
  set nodes2 := alSet nodes1 s n2' with hnodes2
  have hmk : mark_used st p s pos
      = some { st with graph := markG st.graph p s pos sufs b, nodes := nodes2 } := by
    simp only [mark_used, hg, hb, he, hdec1, hdec2]
  set st' : Assembler :=
    { st with graph := markG st.graph p s pos sufs b, nodes := nodes2 } with hst'
  have hkeys2 : keysOf nodes2 = keysOf st.nodes := by
    rw [hnodes2, keysOf_set, hnodes1, keysOf_set]
  have hidx1 : ∀ q ∈ nodes1, q.2.idx = q.1 := by
    apply idx_consistent_set
    · show n1'.idx = p
      rw [hn1def]
      exact hw5 (p, n1) (alLookup_mem st.nodes p n1 hn1)
    · exact hw5
  have hidx2 : ∀ q ∈ nodes2, q.2.idx = q.1 := by
    apply idx_consistent_set
    · show n2'.idx = s
      rw [hn2pdef]
      exact hidx1 (s, n2) (alLookup_mem nodes1 s n2 hln2)
    · exact hidx1
  refine ⟨st', hmk, rfl, ?_, ?_, ?_, hkeys2, ?_, rfl, rfl, rfl⟩
  · -- degree invariant after the mark
    intro k
    have hout := outUnused_mark st.graph p s pos k sufs b e hg hb he hu
    have hin := inUnused_mark st.graph p s pos k sufs b e hg hb he hu
    by_cases hks : k = s
    · subst hks
      have hl2 : alLookup nodes2 k = some n2' := alLookup_set_self nodes1 k n2' n2 hln2
      show (match alLookup nodes2 k with
        | some n => n.odeg = outUnused st'.graph k ∧ n.ideg = inUnused st'.graph k
        | none => outUnused st'.graph k = 0 ∧ inUnused st'.graph k = 0)
      rw [hl2]
      by_cases hkp : k = p
      · -- self-loop
        subst hkp
        constructor
        · show n2'.odeg = outUnused st'.graph k
          rw [hn2pdef]
          show n2.odeg = outUnused st'.graph k
          have heq : n2 = n1' := by
            have h2 := alLookup_set_self st.nodes k n1' n1 hn1
            rw [hnodes1] at hln2
            rw [h2] at hln2
            exact (Option.some.injEq .. ▸ hln2).symm
          rw [heq, hn1def]
          show n1.odeg - 1 = outUnused st'.graph k
          rw [hodeg1]
          simp only [hst']
          rw [if_pos rfl] at hout
          omega
        · show n2'.ideg = inUnused st'.graph k
          rw [hn2pdef]
          show n2.ideg - 1 = inUnused st'.graph k
          rw [hn2ideg]
          simp only [hst']
          rw [if_pos rfl] at hin
          omega
      · constructor
        · show n2'.odeg = outUnused st'.graph k
          rw [hn2pdef]
          show n2.odeg = outUnused st'.graph k
          have hl0 : alLookup st.nodes k = some n2 := by
            rw [← hlook1 k hkp]; exact hln2
          have := hd k
          rw [hl0] at this
          rw [this.1]
          simp only [hst']
          rw [if_neg (fun hpk => hkp hpk.symm)] at hout
          omega
        · show n2'.ideg = inUnused st'.graph k
          rw [hn2pdef]
          show n2.ideg - 1 = inUnused st'.graph k
          rw [hn2ideg]
          simp only [hst']
          rw [if_pos rfl] at hin
          omega
    · have hl2 : alLookup nodes2 k = alLookup nodes1 k :=
        alLookup_set_ne nodes1 s k n2' hks
      by_cases hkp : k = p
      · subst hkp
        have hl1 : alLookup nodes1 k = some n1' := alLookup_set_self st.nodes k n1' n1 hn1
        show (match alLookup nodes2 k with
          | some n => n.odeg = outUnused st'.graph k ∧ n.ideg = inUnused st'.graph k
          | none => outUnused st'.graph k = 0 ∧ inUnused st'.graph k = 0)
        rw [hl2, hl1]
        constructor
        · show n1'.odeg = outUnused st'.graph k
          rw [hn1def]
          show n1.odeg - 1 = outUnused st'.graph k
          rw [hodeg1]
          simp only [hst']
          rw [if_pos rfl] at hout
          omega
        · show n1'.ideg = inUnused st'.graph k
          rw [hn1def]
          show n1.ideg = inUnused st'.graph k
          rw [hn1d.2]
          simp only [hst']
          rw [if_neg (fun hsk => hks hsk.symm)] at hin
          omega
      · have hl1 : alLookup nodes1 k = alLookup st.nodes k := hlook1 k hkp
        show (match alLookup nodes2 k with
          | some n => n.odeg = outUnused st'.graph k ∧ n.ideg = inUnused st'.graph k
          | none => outUnused st'.graph k = 0 ∧ inUnused st'.graph k = 0)
        rw [hl2, hl1]
        have := hd k
        rw [if_neg (fun hpk => hkp hpk.symm)] at hout
        rw [if_neg (fun hsk => hks hsk.symm)] at hin
        cases hl : alLookup st.nodes k with
        | some n =>
          rw [hl] at this
          simp only [hst']
          exact ⟨by omega, by omega⟩
        | none =>
          rw [hl] at this
          simp only [hst']
          exact ⟨by omega, by omega⟩
  · exact gwf_mark st.graph st.nodes nodes2 p s pos sufs b
      ⟨hw1, hw2, hw3, hw4, hw5⟩ hg hb hkeys2 hidx2
  · exact unusedTotal_mark st.graph p s pos sufs b e hg hb he hu
  · exact graphLe_markG st.graph p s pos sufs b hg hb

/-- C3.  For every node, immediately after construction (`Assembler::new`)
its `odeg` equals the number of unconsumed edges with the node as source
and its `ideg` the number with it as destination; and consuming any
present, still-unconsumed edge via `mark_used` — the only mutation the
traversals perform — succeeds and preserves the invariant (and structural
well-formedness), so the invariant holds after every edge consumption in
any sequence of traversals. -/
theorem c3_degree_invariant :
    (∀ (reads : List (List Nat)) (st : Assembler),
      Assembler.new reads = some st → degInv st ∧ graphWF st) ∧
    (∀ (st : Assembler) (p s pos : Nat) (e : Edge),
      graphWF st → degInv st →
      edgeAt st.graph p s pos = some e → e.used = false →
      ∃ st', mark_used st p s pos = some st' ∧ degInv st' ∧ graphWF st') := by
  constructor
  · intro reads st h
    obtain ⟨hd, hw⟩ := new_dinvL_gwf reads st h
    exact ⟨dinv_of_dinvL hw.1 hd, hw⟩
  · intro st p s pos e hwf hd he hu
    simp only [edgeAt] at he
    cases hg : alLookup st.graph p with
    | none => simp only [hg] at he; cases he
    | some sufs =>
      simp only [hg] at he
      cases hb : alLookup sufs s with
      | none => simp only [hb] at he; cases he
      | some b =>
        simp only [hb] at he
        obtain ⟨st', hmk, _, hdinv, hgwf, _, _, _, _, _, _⟩ :=
          mark_used_total st p s pos sufs b e hwf (dinvL_of_dinv hwf hd) hg hb he hu
        exact ⟨st', hmk, dinv_of_dinvL hgwf.1 hdinv, hgwf⟩

/-- The concrete example reads: two copies of `A^15 C A^14` (prefix node 0,
suffix node 1) and one `C A^29` (prefix node 1, suffix node 0). -/
def exReads : List (List Nat) :=
  [List.replicate 15 65 ++ [67] ++ List.replicate 14 65,
   List.replicate 15 65 ++ [67] ++ List.replicate 14 65,
   [67] ++ List.replicate 29 65]

/-- The assembler built from `exReads` (construction succeeds on it). -/
def exSt : Assembler :=
  match Assembler.new exReads with
  | some st => st
  | none => ⟨[], [], [], [], []⟩

/-- Witness for C3 at the concrete state: the invariant holds after
construction, and marking the first edge of bucket `(0, 1)` keeps it. -/
theorem c3_degree_invariant_witness :
    (degInv exSt ∧ graphWF exSt) ∧
    ∃ st', mark_used exSt 0 1 0 = some st' ∧ degInv st' ∧ graphWF st' :=
  ⟨c3_degree_invariant.1 exReads exSt (by decide),
   c3_degree_invariant.2 exSt 0 1 0 (newEdge 0 1) (by decide) (by decide)
     (by decide) rfl⟩

/-! ### The traversal (`find_path_or_cycle`, `populate_paths_or_cycles`) -/

/-- `PathType` from src/sbh_assembler.rs. -/
inductive PathType
  | Path
  | Cycle
deriving DecidableEq, Repr

/-- The eligibility test the walk applies to a destination bucket:
`bucket.iter().all(|e| !e.used)` — every edge unconsumed, not just one. -/
def allUnused (b : Bucket) : Bool := b.all (fun e => !e.used)

/-- `sufs.keys().find(|idx| ...)`: iterate the keys, look each bucket up
again, and keep the first key whose bucket passes `allUnused`. -/
def findNextKey (sufs : Sufs) : Option Nat :=
  (keysOf sufs).find? (fun d =>
    match alLookup sufs d with
    | some b => allUnused b
    | none => false)

/-- Outcome of one iteration of the walk loop. -/
inductive StepRes
  | stuck
  | fail
  | step (d : Nat) (st : Assembler)
deriving DecidableEq, Repr

/-- One iteration of the walk loop at current node `c`: break when the
node has no adjacency entry or no fully-unconsumed destination bucket
(`stuck`); otherwise mark the first unconsumed edge of the found bucket
and step to its destination.  `fail` models the `unwrap()` aborts and the
degree-underflow aborts, none of which is reachable from a well-formed
state. -/
def stepOf (st : Assembler) (c : Nat) : StepRes :=
  match alLookup st.graph c with
  | none => StepRes.stuck
  | some sufs =>
    match findNextKey sufs with
    | none => StepRes.stuck
    | some d =>
      match alLookup sufs d with
      | none => StepRes.fail
      | some b =>
        match b.findIdx? (fun e => !e.used) with
        | none => StepRes.fail
        | some pos =>
          match mark_used st c d pos with
          | none => StepRes.fail
          | some st1 =>
            match alLookup st1.nodes d with
            | none => StepRes.fail
            | some _ => StepRes.step d st1

/-- `node == start`: the derived `PartialEq` compares the two shared node
cells field by field (`idx` and both current degree counters). -/
def nodeEqAt (st : Assembler) (a bkey : Nat) : Bool :=
  alLookup st.nodes a == alLookup st.nodes bkey

/-- The walk loop of `find_path_or_cycle`; `fuel` bounds the iterations
(the entry point passes one more than the number of unconsumed edges,
which cannot run out because every iteration either stops or consumes an
edge). -/
def findPathOrCycleGo (typ : PathType) (start : Nat) :
    Nat → Assembler → Nat → List Nat → Option (List Nat × Assembler)
  | 0, _, _, _ => none
  | fuel + 1, st, c, path =>
    match stepOf st c with
    | StepRes.stuck => some (path, st)
    | StepRes.fail => none
    | StepRes.step d st1 =>
      if typ = PathType.Cycle ∧ nodeEqAt st1 d start = true then
        some (path ++ [d], st1)
      else findPathOrCycleGo typ start fuel st1 d (path ++ [d])

/-- `Assembler::find_path_or_cycle`. -/
def find_path_or_cycle (st : Assembler) (start : Nat) (typ : PathType) :
    Option (List Nat × Assembler) :=
  findPathOrCycleGo typ start (unusedTotal st.graph + 1) st start [start]

/-- The start-node filter of `populate_paths_or_cycles`, evaluated on the
state before any traversal of the batch runs. -/
def startNodes (st : Assembler) (typ : PathType) : List Nat :=
  st.nodes.filterMap (fun q =>
    match typ with
    | PathType.Path => if q.2.ideg < q.2.odeg then some q.1 else none
    | PathType.Cycle => if 0 < q.2.odeg ∧ 0 < q.2.ideg then some q.1 else none)

/-- Retain a finished run only when it meets the length threshold
(5 nodes for a path, 3 for a cycle). -/
def recordRun (st : Assembler) (typ : PathType) (p : List Nat) : Assembler :=
  match typ with
  | PathType.Path =>
      if 5 ≤ p.length then { st with paths := st.paths ++ [p] } else st
  | PathType.Cycle =>
      if 3 ≤ p.length then { st with cycles := st.cycles ++ [p] } else st

/-- `Assembler::populate_paths_or_cycles`. -/
def populate_paths_or_cycles (st : Assembler) (typ : PathType) : Option Assembler :=
  (startNodes st typ).foldlM (fun acc s =>
    match find_path_or_cycle acc s typ with
    | none => none
    | some (p, st1) => some (recordRun st1 typ p)) st

/-- Any sequence of Path/Cycle extraction passes against one graph. -/
def runOps (st : Assembler) (ops : List PathType) : Option Assembler :=
  ops.foldlM (fun acc t => populate_paths_or_cycles acc t) st

theorem findNextKey_none_iff (sufs : Sufs) (hnd : (keysOf sufs).Nodup) :
    findNextKey sufs = none ↔ ∀ q ∈ sufs, allUnused q.2 = false := by
  rw [findNextKey, List.find?_eq_none]
  constructor
  · intro h q hq
    have hk : q.1 ∈ keysOf sufs := by
      simp only [keysOf, List.mem_map]
      exact ⟨q, hq, rfl⟩
    have := h q.1 hk
    rw [alLookup_of_mem_nodup sufs q.1 q.2 hnd (by simpa using hq)] at this
    simpa using this
  · intro h d hd
    obtain ⟨b, hb⟩ := alLookup_isSome_of_mem_keys sufs d hd
    rw [hb]
    have := h (d, b) (alLookup_mem sufs d b hb)
    simpa using this

theorem findNextKey_some (sufs : Sufs) (d : Nat)
    (h : findNextKey sufs = some d) :
    ∃ b, alLookup sufs d = some b ∧ allUnused b = true := by
  have hp := List.find?_some h
  cases hb : alLookup sufs d with
  | none => rw [hb] at hp; cases hp
  | some b =>
    rw [hb] at hp
    exact ⟨b, rfl, hp⟩

theorem findIdx_of_allUnused (b : Bucket) (hne : b ≠ [])
    (ha : allUnused b = true) :
    ∃ e, b.findIdx? (fun e => !e.used) = some 0 ∧ b[0]? = some e ∧
      e.used = false := by
  cases b with
  | nil => exact absurd rfl hne
  | cons e0 t =>
    have he0 : e0.used = false := by
      have := (List.all_eq_true.mp ha) e0 (by simp)
      simpa using this
    refine ⟨e0, ?_, by simp, he0⟩
    rw [List.findIdx?_cons]
    simp [he0]

/-- The trichotomy of one walk iteration from a well-formed state: never a
`fail`; `stuck` exactly when no destination bucket is fully unconsumed;
a step consumes exactly one unconsumed edge of a fully-unconsumed bucket
and preserves the invariants. -/
theorem stepOf_spec (st : Assembler) (c : Nat)
    (hwf : graphWF st) (hd : dinvL st.graph st.nodes) :
    (stepOf st c ≠ StepRes.fail) ∧
    (stepOf st c = StepRes.stuck ↔
      ∀ sufs, alLookup st.graph c = some sufs → ∀ q ∈ sufs, allUnused q.2 = false) ∧
    (∀ d st1, stepOf st c = StepRes.step d st1 →
      (∃ sufs b, alLookup st.graph c = some sufs ∧ alLookup sufs d = some b ∧
        allUnused b = true) ∧
      unusedTotal st1.graph + 1 = unusedTotal st.graph ∧
      graphLe st.graph st1.graph = true ∧
      graphWF st1 ∧ dinvL st1.graph st1.nodes ∧
      keysOf st1.nodes = keysOf st.nodes ∧
      st1.paths = st.paths ∧ st1.cycles = st.cycles ∧ st1.contigs = st.contigs) := by
  cases hg : alLookup st.graph c with
  | none =>
    have hstep : stepOf st c = StepRes.stuck := by
      simp only [stepOf, hg]
    rw [hstep]
    refine ⟨by simp, ?_, ?_⟩
    · constructor
      · intro _ sufs hsufs
        cases hsufs
      · intro _; rfl
    · intro d st1 h; cases h
  | some sufs =>
    have hmem : (c, sufs) ∈ st.graph := alLookup_mem _ c sufs hg
    have hnd : (keysOf sufs).Nodup := hwf.2.1 (c, sufs) hmem
    cases hfk : findNextKey sufs with
    | none =>
      have hstep : stepOf st c = StepRes.stuck := by
        simp only [stepOf, hg, hfk]
      rw [hstep]
      refine ⟨by simp, ?_, ?_⟩
      · constructor
        · intro _ sufs' hsufs'
          obtain rfl : sufs = sufs' := Option.some.injEq .. ▸ hsufs'
          exact (findNextKey_none_iff sufs hnd).mp hfk
        · intro _; rfl
      · intro d st1 h; cases h
    | some d =>
      obtain ⟨b, hb, hall⟩ := findNextKey_some sufs d hfk
      have hbmem : (d, b) ∈ sufs := alLookup_mem sufs d b hb
      have hbne : b ≠ [] := (hwf.2.2.1 (c, sufs) hmem (d, b) hbmem).1
      obtain ⟨e, hfi, he0, hu0⟩ := findIdx_of_allUnused b hbne hall
      obtain ⟨st1, hmk, hgeq, hdinv, hgwf, htot, hkeys, hle, hpth, hcyc, hcon⟩ :=
        mark_used_total st c d 0 sufs b e hwf hd hg hb he0 hu0
      have hdnodes : d ∈ keysOf st.nodes :=
        (hwf.2.2.2.1 (c, sufs) hmem).2 (d, b) hbmem
      obtain ⟨nd, hnd2⟩ := alLookup_isSome_of_mem_keys st1.nodes d
        (by rw [hkeys]; exact hdnodes)
      have hstep : stepOf st c = StepRes.step d st1 := by
        simp only [stepOf, hg, hfk, hb, hfi, hmk, hnd2]
      rw [hstep]
      refine ⟨by simp, ?_, ?_⟩
      · constructor
        · intro h; cases h
        · intro h
          have := h sufs rfl (d, b) hbmem
          rw [hall] at this
          cases this
      · intro d' st1' h
        obtain ⟨hd', hst1'⟩ := StepRes.step.injEq .. ▸ h
        subst hd'; subst hst1'
        exact ⟨⟨sufs, b, rfl, hb, hall⟩, htot, hle, hgwf, hdinv, hkeys,
          hpth, hcyc, hcon⟩

/-- The walk loop from a well-formed state never aborts and only raises
consumed flags, provided the fuel exceeds the number of unconsumed
edges. -/
theorem findPathOrCycleGo_total (typ : PathType) (start : Nat) :
    ∀ (fuel : Nat) (st : Assembler) (c : Nat) (path : List Nat),
      graphWF st → dinvL st.graph st.nodes →
      unusedTotal st.graph < fuel →
      ∃ res st', findPathOrCycleGo typ start fuel st c path = some (res, st') ∧
        graphWF st' ∧ dinvL st'.graph st'.nodes ∧
        graphLe st.graph st'.graph = true ∧
        keysOf st'.nodes = keysOf st.nodes ∧
        st'.paths = st.paths ∧ st'.cycles = st.cycles ∧ st'.contigs = st.contigs := by
  intro fuel
  induction fuel with
  | zero => intro st c path _ _ hf; omega
  | succ fuel ih =>
    intro st c path hwf hd hf
    obtain ⟨hnofail, hstuck, hstep⟩ := stepOf_spec st c hwf hd
    cases hs : stepOf st c with
    | stuck =>
      refine ⟨path, st, ?_, hwf, hd, graphLe_refl _, rfl, rfl, rfl, rfl⟩
      simp only [findPathOrCycleGo, hs]
    | fail => exact absurd hs hnofail
    | step d st1 =>
      obtain ⟨_, htot, hle, hgwf1, hdinv1, hkeys1, hpth1, hcyc1, hcon1⟩ :=
        hstep d st1 hs
      by_cases hbrk : typ = PathType.Cycle ∧ nodeEqAt st1 d start = true
      · refine ⟨path ++ [d], st1, ?_, hgwf1, hdinv1, hle, hkeys1,
          hpth1, hcyc1, hcon1⟩
        simp only [findPathOrCycleGo, hs, if_pos hbrk]
      · obtain ⟨res, st', hrun, hgwf', hdinv', hle', hkeys', hpth', hcyc', hcon'⟩ :=
          ih st1 d (path ++ [d]) hgwf1 hdinv1 (by omega)
        refine ⟨res, st', ?_, hgwf', hdinv', graphLe_trans hle hle',
          hkeys'.trans hkeys1, hpth'.trans hpth1, hcyc'.trans hcyc1,
          hcon'.trans hcon1⟩
        simp only [findPathOrCycleGo, hs, if_neg hbrk]
        exact hrun

theorem recordRun_graph (st : Assembler) (typ : PathType) (p : List Nat) :
    (recordRun st typ p).graph = st.graph ∧
    (recordRun st typ p).nodes = st.nodes := by
  cases typ <;> simp only [recordRun] <;> split <;> exact ⟨rfl, rfl⟩

/-- One whole extraction pass from a well-formed state never aborts, keeps
the invariants, and only raises consumed flags. -/
theorem populate_total (st : Assembler) (typ : PathType)
    (hwf : graphWF st) (hd : dinvL st.graph st.nodes) :
    ∃ st', populate_paths_or_cycles st typ = some st' ∧
      graphWF st' ∧ dinvL st'.graph st'.nodes ∧
      graphLe st.graph st'.graph = true ∧
      keysOf st'.nodes = keysOf st.nodes := by
  rw [populate_paths_or_cycles]
  generalize startNodes st typ = starts
  induction starts generalizing st with
  | nil =>
    exact ⟨st, by simp, hwf, hd, graphLe_refl _, rfl⟩
  | cons s rest ih =>
    obtain ⟨p, st1, hrun, hgwf1, hdinv1, hle1, hkeys1, _, _, _⟩ :=
      findPathOrCycleGo_total typ s (unusedTotal st.graph + 1) st s [s]
        hwf hd (by omega)
    have hrun' : find_path_or_cycle st s typ = some (p, st1) := hrun
    set st2 := recordRun st1 typ p with hst2
    have hst2g : st2.graph = st1.graph := (recordRun_graph st1 typ p).1
    have hst2n : st2.nodes = st1.nodes := (recordRun_graph st1 typ p).2
    have hgwf2 : graphWF st2 := by
      show gwf st2.graph st2.nodes
      rw [hst2g, hst2n]
      exact hgwf1
    have hdinv2 : dinvL st2.graph st2.nodes := by
      rw [hst2g, hst2n]
      exact hdinv1
    obtain ⟨st', hfold, hgwf', hdinv', hle', hkeys'⟩ := ih st2 hgwf2 hdinv2
    refine ⟨st', ?_, hgwf', hdinv', ?_, ?_⟩
    · rw [List.foldlM_cons, hrun']
      simpa using hfold
    · rw [hst2g] at hle'
      exact graphLe_trans hle1 hle'
    · rw [hst2n] at hkeys'
      exact hkeys'.trans hkeys1

/-- C4.  Across any sequence of Path/Cycle extraction passes against one
constructed graph, every run completes without abort — in this embedding
`mark_used` aborts on a second marking's degree underflow or a missing
unconsumed edge, so success says every consumed edge was unconsumed with
both endpoint counters positive at the moment of consumption — the
consumed flags are monotone (`graphLe`: each flag goes false→true at most
once over the whole sequence, with the graph's shape unchanged), and the
degree invariant still holds at the end (each transition decremented both
endpoints' counters exactly once). -/
theorem c4_edge_exactly_once (reads : List (List Nat)) (st : Assembler)
    (h : Assembler.new reads = some st) (ops : List PathType) :
    ∃ st', runOps st ops = some st' ∧
      graphLe st.graph st'.graph = true ∧ degInv st' ∧ graphWF st' := by
  obtain ⟨hd0, hw0⟩ := new_dinvL_gwf reads st h
  have main : ∀ (ops : List PathType) (st0 : Assembler),
      gwf st0.graph st0.nodes → dinvL st0.graph st0.nodes →
      ∃ st', runOps st0 ops = some st' ∧
        graphLe st0.graph st'.graph = true ∧
        gwf st'.graph st'.nodes ∧ dinvL st'.graph st'.nodes := by
    intro ops
    induction ops with
    | nil =>
      intro st0 hw hdl
      exact ⟨st0, by simp [runOps], graphLe_refl _, hw, hdl⟩
    | cons t rest ih =>
      intro st0 hw hdl
      obtain ⟨st1, hpop, hw1, hd1, hle1, _⟩ := populate_total st0 t hw hdl
      obtain ⟨st', hrest, hle', hw', hd'⟩ := ih st1 hw1 hd1
      refine ⟨st', ?_, graphLe_trans hle1 hle', hw', hd'⟩
      rw [runOps, List.foldlM_cons, hpop]
      exact hrest
  obtain ⟨st', hops, hle, hw', hd'⟩ := main ops st hw0 hd0
  exact ⟨st', hops, hle, dinv_of_dinvL hw'.1 hd', hw'⟩

/-- Witness for C4: both passes run to completion on the concrete
example. -/
theorem c4_edge_exactly_once_witness :
    ∃ st', runOps exSt [PathType.Path, PathType.Cycle] = some st' ∧
      graphLe exSt.graph st'.graph = true ∧ degInv st' ∧ graphWF st' :=
  c4_edge_exactly_once exReads exSt (by decide) [PathType.Path, PathType.Cycle]

/-- C1 counterexample.  From the graph of `exReads` (edges 0→1, 0→1, 1→0),
the Path traversal started at node 0 walks 0→1→0 and then terminates even
though the bucket 0→1 still holds one unconsumed edge (`outUnused` of the
final current node 0 is 1): the walk requires a bucket with all edges
unconsumed, so a half-consumed bucket strands its remaining edges,
contradicting the claim that a step is taken whenever some bucket holds at
least one unconsumed edge and that `Stuck` means no unconsumed edge is
left. -/
theorem c1_counterexample :
    ((Assembler.new exReads).bind
        (fun st => find_path_or_cycle st 0 PathType.Path)).map
      (fun r => (r.1, outUnused r.2.graph 0)) = some ([0, 1, 0], 1) := by
  decide

/-- C1 amended.  In `find_path_or_cycle`, the walk takes a step exactly
when some destination bucket of the current node has all of its edges
unconsumed: termination with `Stuck` means every bucket of the current
node contains at least one consumed edge (even if unconsumed edges
remain); when a fully-unconsumed bucket exists the walk consumes exactly
one unconsumed edge from it and appends the destination; and the iteration
never aborts. -/
theorem c1_amended_step (st : Assembler) (c : Nat)
    (hwf : graphWF st) (hd : degInv st) :
    (stepOf st c ≠ StepRes.fail) ∧
    (stepOf st c = StepRes.stuck ↔
      ∀ sufs, alLookup st.graph c = some sufs →
        ∀ q ∈ sufs, allUnused q.2 = false) ∧
    ((∃ sufs q, alLookup st.graph c = some sufs ∧ q ∈ sufs ∧
        allUnused q.2 = true) →
      ∃ d st1, stepOf st c = StepRes.step d st1) ∧
    (∀ d st1, stepOf st c = StepRes.step d st1 →
      unusedTotal st1.graph + 1 = unusedTotal st.graph ∧
      graphLe st.graph st1.graph = true) := by
  obtain ⟨hnofail, hstuck, hstep⟩ :=
    stepOf_spec st c hwf (dinvL_of_dinv hwf hd)
  refine ⟨hnofail, hstuck, ?_, ?_⟩
  · rintro ⟨sufs, q, hsufs, hq, hall⟩
    cases hs : stepOf st c with
    | stuck =>
      have := (hstuck.mp hs) sufs hsufs q hq
      rw [hall] at this
      cases this
    | fail => exact absurd hs hnofail
    | step d st1 => exact ⟨d, st1, rfl⟩
  · intro d st1 hs
    obtain ⟨_, htot, hle, _⟩ := hstep d st1 hs
    exact ⟨htot, hle⟩

/-- Witness for C1's amended statement: the iteration at node 0 of the
concrete example does not abort. -/
theorem c1_amended_step_witness : stepOf exSt 0 ≠ StepRes.fail :=
  (c1_amended_step exSt 0 (by decide) (by decide)).1

theorem nodeEqAt_iff (st : Assembler) (a bkey : Nat)
    (hidx : ∀ q ∈ st.nodes, q.2.idx = q.1)
    (ha : a ∈ keysOf st.nodes) (hb : bkey ∈ keysOf st.nodes) :
    (nodeEqAt st a bkey = true ↔ a = bkey) := by
  obtain ⟨na, hna⟩ := alLookup_isSome_of_mem_keys st.nodes a ha
  obtain ⟨nb, hnb⟩ := alLookup_isSome_of_mem_keys st.nodes bkey hb
  rw [nodeEqAt, hna, hnb]
  constructor
  · intro h
    have hnn : na = nb := by
      have := beq_iff_eq.mp h
      exact Option.some.injEq .. ▸ this
    have h1 : na.idx = a := hidx (a, na) (alLookup_mem st.nodes a na hna)
    have h2 : nb.idx = bkey := hidx (bkey, nb) (alLookup_mem st.nodes bkey nb hnb)
    rw [← h1, ← h2, hnn]
  · intro h
    subst h
    rw [hna] at hnb
    obtain rfl := Option.some.injEq .. ▸ hnb
    exact beq_iff_eq.mpr rfl

/-- C7.  A Cycle traversal terminates with ReturnedToStart exactly when
the newly appended destination node is the start node by its key: the
source compares the two shared `Node` cells with the derived full-state
equality, but since each key owns exactly one cell (whose `idx` field is
the key), the comparison's outcome coincides with key identity and does
not depend on the mutable degree fields. -/
theorem c7_cycle_closure_by_key (typ : PathType) (start fuel : Nat)
    (st : Assembler) (c : Nat) (path : List Nat) (d : Nat) (st1 : Assembler)
    (hstep : stepOf st c = StepRes.step d st1)
    (hidx : ∀ q ∈ st1.nodes, q.2.idx = q.1)
    (hd : d ∈ keysOf st1.nodes) (hs : start ∈ keysOf st1.nodes) :
    findPathOrCycleGo typ start (fuel + 1) st c path
      = if typ = PathType.Cycle ∧ d = start then some (path ++ [d], st1)
        else findPathOrCycleGo typ start fuel st1 d (path ++ [d]) := by
  have hiff := nodeEqAt_iff st1 d start hidx hd hs
  simp only [findPathOrCycleGo, hstep]
  by_cases hc : typ = PathType.Cycle ∧ d = start
  · rw [if_pos ⟨hc.1, hiff.mpr hc.2⟩, if_pos hc]
  · have hc' : ¬ (typ = PathType.Cycle ∧ nodeEqAt st1 d start = true) := by
      intro hcc
      exact hc ⟨hcc.1, hiff.mp hcc.2⟩
    rw [if_neg hc', if_neg hc]

/-- The result of the first step of the example traversal. -/
def exStep : StepRes := stepOf exSt 0

def exD : Nat :=
  match exStep with
  | StepRes.step d _ => d
  | _ => 0

def exSt1 : Assembler :=
  match exStep with
  | StepRes.step _ s => s
  | _ => exSt

/-- Witness for C7 at the first step of a Cycle run on the concrete
example (destination 1, start 0, so the run continues). -/
theorem c7_cycle_closure_by_key_witness :
    findPathOrCycleGo PathType.Cycle 0 4 exSt 0 [0]
      = if PathType.Cycle = PathType.Cycle ∧ exD = 0 then some ([0] ++ [exD], exSt1)
        else findPathOrCycleGo PathType.Cycle 0 3 exSt1 exD ([0] ++ [exD]) :=
  c7_cycle_closure_by_key PathType.Cycle 0 3 exSt 0 [0] exD exSt1
    (by decide) (by decide) (by decide) (by decide)

end SBH
